import Mathlib

/-!
Verification of the PS1 chat server (storage layer, request dispatcher and
wire codecs) against its natural-language specification.

The Python source is shallowly embedded: each storage method becomes a pure
Lean function over an explicit state, Python list slicing with signed bounds
is modelled by `sliceFrom` / `sliceTo`, and the two wire codecs become
functions on `List Char`.
-/

namespace Chat


/-- Python list slice `xs[l:]` with a signed lower bound: a negative `l`
counts from the end (clamped at 0), a non-negative `l` from the front. -/
def sliceFrom (l : Int) (xs : List α) : List α :=
  if l < 0 then xs.drop ((xs.length : Int) + l).toNat else xs.drop l.toNat

/-- Python list slice `xs[:u]` with a signed upper bound: a negative `u`
counts from the end (clamped at 0), a non-negative `u` from the front. -/
def sliceTo (u : Int) (xs : List α) : List α :=
  if u < 0 then xs.take ((xs.length : Int) + u).toNat else xs.take u.toNat

/-- `MemoryStorage.get_and_clear_messages` restricted to one recipient queue:
returns the read messages, the queue left behind (`self.messages[username]`)
and the reported remaining count.  Mirrors
`msgs[:abs(n)] / msgs[abs(n):]` for `n < 0` and
`msgs[-n:][::-1] / msgs[:-n]` otherwise. -/
def get_and_clear_messages (msgs : List M) (num_to_read : Int) :
    List M × List M × Nat :=
  if num_to_read < 0 then
    (sliceTo (Int.natAbs num_to_read : Int) msgs,
     sliceFrom (Int.natAbs num_to_read : Int) msgs,
     (sliceFrom (Int.natAbs num_to_read : Int) msgs).length)
  else
    ((sliceFrom (-num_to_read) msgs).reverse,
     sliceTo (-num_to_read) msgs,
     (sliceTo (-num_to_read) msgs).length)

/-- `MemoryStorage.delete_messages` restricted to one recipient queue:
returns the reported deleted count (`count_before - count_after`) and the
queue left behind (`msgs[n:]` for `n >= 0`, `msgs[:n]` otherwise). -/
def delete_messages (msgs : List M) (num_to_delete : Int) : Nat × List M :=
  let count_before := msgs.length
  let newq :=
    if 0 ≤ num_to_delete then sliceFrom num_to_delete msgs
    else sliceTo num_to_delete msgs
  (count_before - newq.length, newq)

/-! ## Association-list model of Python dicts

Python dict keys are unique, so removing a key's binding is the same as
removing every binding with that key; `aset` assigns in place preserving
insertion order, appending when the key is new, exactly as dict assignment
does. -/

def alookup (k : String) : List (String × β) → Option β
  | [] => none
  | (k2, v) :: rest => if k2 = k then some v else alookup k rest

def aset (k : String) (v : β) : List (String × β) → List (String × β)
  | [] => [(k, v)]
  | (k2, v2) :: rest =>
      if k2 = k then (k2, v) :: rest else (k2, v2) :: aset k v rest

/-- `dict.pop(k, None)`: drop the binding of `k`. -/
def aerase (k : String) (m : List (String × β)) : List (String × β) :=
  m.filter (fun p => !(p.1 == k))

/-! ## The in-memory backend -/

/-- `hash_password` is an opaque digest as far as every claim is concerned;
the embedding keeps only that each password determines one stored string. -/
def hash_password (password : String) : String := "#" ++ password

/-- `TOKEN_EXPIRY_TIME` from `server/config.py`. -/
def TOKEN_EXPIRY_TIME : ℚ := 3000

/-- One session record: `{"username": ..., "expiry_time": ...}`. -/
structure Session where
  username : String
  expiry_time : ℚ
deriving DecidableEq

/-- A Python message dict: string keys, each mapped to a string or `None`. -/
abbrev MsgDict := List (String × Option String)

/-- The full `MemoryStorage` state: `users`, `messages`, `clients`
(username ↦ token ↦ socket id) and `sessions` (the latter two live on the
abstract `Storage` base class). -/
structure MemState where
  users : List (String × String)
  messages : List (String × List MsgDict)
  clients : List (String × List (String × Nat))
  sessions : List (String × Session)
deriving DecidableEq

def MemState.init : MemState := ⟨[], [], [], []⟩

def account_exist (s : MemState) (username : String) : Bool :=
  (alookup username s.users).isSome

def create_account (s : MemState) (username password : String) :
    (Bool × Option String) × MemState :=
  if account_exist s username then ((false, some "Username already exists"), s)
  else ((true, none),
    { s with users := aset username (hash_password password) s.users,
             messages := aset username [] s.messages })

/-- `MemoryStorage.login`; the fresh `uuid4` token and the current clock are
parameters of the embedding.  Returns
`(success, error, session_token, unread_count)` and the new state. -/
def login (s : MemState) (username password session_token : String) (now : ℚ) :
    (Bool × Option String × Option String × Option Nat) × MemState :=
  match alookup username s.users with
  | none => ((false, some "User does not exist", none, none), s)
  | some stored =>
      if stored ≠ hash_password password then
        ((false, some "Incorrect password", none, none), s)
      else
        let s2 :=
          { s with
            sessions :=
              aset session_token ⟨username, now + TOKEN_EXPIRY_TIME⟩ s.sessions }
        ((true, none, some session_token,
            some ((alookup username s.messages).getD []).length), s2)

def validate_session (s : MemState) (session_token : String) (now : ℚ) :
    Option String :=
  match alookup session_token s.sessions with
  | some sess => if now ≤ sess.expiry_time then some sess.username else none
  | none => none

/-- `MemoryStorage.add_message`: appends only when the recipient key is
present in the `messages` dict. -/
def add_message (s : MemState) (recipient : String) (message : MsgDict) :
    MemState :=
  match alookup recipient s.messages with
  | some q => { s with messages := aset recipient (q ++ [message]) s.messages }
  | none => s

/-- `MemoryStorage.get_and_clear_messages` acting on the whole state. -/
def mem_get_and_clear (s : MemState) (username : String) (n : Int) :
    (List MsgDict × Nat) × MemState :=
  let msgs := (alookup username s.messages).getD []
  let r := get_and_clear_messages msgs n
  ((r.1, r.2.2), { s with messages := aset username r.2.1 s.messages })

/-- `MemoryStorage.delete_messages` acting on the whole state. -/
def mem_delete_messages (s : MemState) (username : String) (n : Int) :
    Nat × MemState :=
  let msgs := (alookup username s.messages).getD []
  let r := delete_messages msgs n
  (r.1, { s with messages := aset username r.2 s.messages })

def delete_account (s : MemState) (username : String) : MemState :=
  { users := aerase username s.users,
    messages := aerase username s.messages,
    clients := aerase username s.clients,
    sessions := s.sessions.filter (fun p => !(p.2.username == username)) }

def logout (s : MemState) (session_token : String) : MemState :=
  match alookup session_token s.sessions with
  | none => s
  | some sess =>
      let newClients :=
        match alookup sess.username s.clients with
        | some conns =>
            aset sess.username (aerase session_token conns) s.clients
        | none => s.clients
      { s with clients := newClients,
               sessions := aerase session_token s.sessions }

/-! ## The request dispatcher (`RequestHandler.process_request`) -/

/-- The response dicts built by the dispatcher branches modelled here:
an `action`, a `status` and an optional `error` text. -/
structure Resp where
  action : String
  status : String
  error : Option String
deriving DecidableEq

/-- Python truthiness of a `data.get(...)` result: `None` and `""` are
falsy. -/
def pyTruthy : Option String → Bool
  | none => false
  | some s => !(s == "")

/-- The `create_account` branch of `process_request`: rejects a missing or
empty username/password before touching the Store. -/
def handle_create_account (s : MemState) (username password : Option String) :
    Resp × MemState :=
  if !(pyTruthy username) || !(pyTruthy password) then
    (⟨"create_account", "error", some "Missing username or password"⟩, s)
  else
    match username, password with
    | some u, some p =>
        let r := create_account s u p
        if r.1.1 then (⟨"create_account", "success", none⟩, r.2)
        else (⟨"create_account", "error", r.1.2⟩, r.2)
    | _, _ => (⟨"create_account", "error", some "Missing username or password"⟩, s)

/-- The `send_message` branch of `process_request`.  `sendOk sock` models
whether `sock.send(...)` returns without raising; the third component of
the result lists every push attempt `(socket, sender, message)` in order. -/
def handle_send_message (s : MemState) (sendOk : Nat → Bool)
    (session_token recipient message : Option String) (now : ℚ) :
    Resp × MemState × List (Nat × String × String) :=
  let senderOpt :=
    match session_token with
    | some tk => validate_session s tk now
    | none => none
  if !(pyTruthy senderOpt) then
    (⟨"send_message", "error", some "Invalid session"⟩, s, [])
  else if !(pyTruthy recipient) || !(pyTruthy message) then
    (⟨"send_message", "error", some "Missing recipient or message"⟩, s, [])
  else
    match senderOpt, recipient, message with
    | some sender, some recip, some msg =>
        if !(account_exist s recip) then
          (⟨"send_message", "error", some "Recipient does not exist"⟩, s, [])
        else
          let socks := ((alookup recip s.clients).getD []).map Prod.snd
          let delivered := socks.any sendOk
          let pushes := socks.map (fun sock => (sock, sender, msg))
          let s2 :=
            if delivered then s
            else add_message s recip
                   [("sender", some sender), ("message", some msg)]
          (⟨"send_message", "success", none⟩, s2, pushes)
    | _, _, _ => (⟨"send_message", "error", some "Invalid session"⟩, s, [])

/-! ## `list_accounts`: wildcard filtering, sorting, pagination -/

/-- `f` applied to every suffix of the input, disjoined: the search a `*`
wildcard performs. -/
def globStarAux (f : List Char → Bool) : List Char → Bool
  | [] => f []
  | c :: s => f (c :: s) || globStarAux f s

/-- `fnmatch` for patterns built from literals, `*` and `?` (the wildcard
forms the spec names); bracket character classes are not used anywhere in
the repository. -/
def globMatch : List Char → List Char → Bool
  | [], s => s.isEmpty
  | '*' :: ps, s => globStarAux (globMatch ps) s
  | '?' :: ps, s =>
      match s with
      | [] => false
      | _ :: s2 => globMatch ps s2
  | p :: ps, s =>
      match s with
      | [] => false
      | c :: s2 => (p == c) && globMatch ps s2

/-- `fnmatch.fnmatch` on strings (POSIX `normcase` is the identity). -/
def fnmatch (name pattern : String) : Bool :=
  globMatch pattern.toList name.toList

/-- Python `xs[a:b]` for non-negative bounds. -/
def pySlice (a b : Nat) (xs : List α) : List α := (xs.take b).drop a

/-- `sorted(fnmatch.filter(users, pattern))`: Python `sorted` on strings is
the unique ordered rearrangement, here realised by insertion sort. -/
def sortedMatches (users : List String) (pattern : String) : List String :=
  List.insertionSort (· ≤ ·) (users.filter (fun n => fnmatch n pattern))

/-- `MemoryStorage.list_accounts`: wildcard-filter the usernames, sort,
paginate with `matched[start_index:end_index]`, and report
`(len(matched) - 1) // page_size + 1 if matched else 1` pages. -/
def list_accounts (users : List String) (pattern : String)
    (page page_size : Nat) : List String × Nat × Nat :=
  (pySlice ((page - 1) * page_size) ((page - 1) * page_size + page_size)
      (sortedMatches users pattern),
   page,
   if (sortedMatches users pattern).isEmpty then 1
   else ((sortedMatches users pattern).length - 1) / page_size + 1)

/-! ## The relational backend (`DatabaseStorage`)

The `messages` table is kept as a list of rows in ascending `id` order
(`AUTOINCREMENT` only ever appends a fresh, larger id), with the
auto-increment counter alongside; `ORDER BY id ASC` is then the list order
and `ORDER BY id DESC` its reverse. -/

/-- `.get(key)` on a message dict (`None` for a missing key). -/
def mget (k : String) (m : MsgDict) : Option String := (alookup k m).join

/-- One row of the `messages` table. -/
structure Row where
  id : Nat
  recipient : String
  sender : Option String
  message : Option String
deriving DecidableEq

/-- The `DatabaseStorage` state relevant to the storage contract. -/
structure DbState where
  users : List (String × String)
  rows : List Row
  nextId : Nat
deriving DecidableEq

def DbState.init : DbState := ⟨[], [], 0⟩

/-- Table well-formedness: ids strictly increase along the table and stay
below the auto-increment counter. -/
def WfDb (s : DbState) : Prop :=
  s.rows.Pairwise (fun r1 r2 => r1.id < r2.id) ∧ ∀ r ∈ s.rows, r.id < s.nextId

def db_account_exist (s : DbState) (username : String) : Bool :=
  (alookup username s.users).isSome

def db_create_account (s : DbState) (username password : String) :
    (Bool × Option String) × DbState :=
  if db_account_exist s username then ((false, some "Username already exists"), s)
  else ((true, none),
    { s with users := s.users ++ [(username, hash_password password)] })

/-- `SELECT ... FROM messages WHERE recipient=? ORDER BY id ASC`. -/
def rowsFor (s : DbState) (u : String) : List Row :=
  s.rows.filter (fun r => r.recipient == u)

/-- The dict a fetched row is returned as. -/
def rowToDict (r : Row) : MsgDict := [("from", r.sender), ("message", r.message)]

/-- The observable queue of a recipient on the relational backend. -/
def dbQueue (s : DbState) (u : String) : List MsgDict :=
  (rowsFor s u).map rowToDict

/-- `DatabaseStorage.add_message`: inserts unconditionally, reading the
`from` and `message` keys of the dict. -/
def db_add_message (s : DbState) (recipient : String) (message : MsgDict) :
    DbState :=
  { s with
    rows := s.rows ++
      [⟨s.nextId, recipient, mget "from" message, mget "message" message⟩],
    nextId := s.nextId + 1 }

/-- `DELETE FROM messages WHERE id IN ids` for the fetched rows, guarded by
`if rows:` as in the source. -/
def deleteFetched (rows : List Row) (fetched : List Row) : List Row :=
  if fetched.isEmpty then rows
  else rows.filter (fun r => !((fetched.map Row.id).contains r.id))

/-- `DatabaseStorage.get_and_clear_messages`. -/
def db_get_and_clear (s : DbState) (username : String) (num_to_read : Int) :
    (List MsgDict × Nat) × DbState :=
  let fetched :=
    if num_to_read < 0 then (rowsFor s username).take num_to_read.natAbs
    else ((rowsFor s username).reverse).take num_to_read.toNat
  let msgs := fetched.map rowToDict
  let s2 : DbState := { s with rows := deleteFetched s.rows fetched }
  ((msgs, (rowsFor s2 username).length), s2)

/-- `DatabaseStorage.delete_messages`. -/
def db_delete_messages (s : DbState) (username : String) (num_to_delete : Int) :
    Nat × DbState :=
  let count_before := (rowsFor s username).length
  let fetched :=
    if 0 ≤ num_to_delete then (rowsFor s username).take num_to_delete.toNat
    else ((rowsFor s username).reverse).take num_to_delete.natAbs
  let s2 : DbState := { s with rows := deleteFetched s.rows fetched }
  (count_before - (rowsFor s2 username).length, s2)

/-- `DatabaseStorage.delete_account` restricted to the relational data (the
session and connection cascade lives on the shared base class and is the
same code as the in-memory backend's). -/
def db_delete_account (s : DbState) (username : String) : DbState :=
  { s with users := aerase username s.users,
           rows := s.rows.filter (fun r => !(r.recipient == username)) }

/-- The state left by a `DELETE ... WHERE id IN ids` of the fetched rows. -/
def dbAfterDelete (d : DbState) (fetched : List Row) : DbState :=
  { d with rows := deleteFetched d.rows fetched }

/-- The state left by reassigning one recipient queue in memory. -/
def memSetQueue (m : MemState) (u : String) (q : List MsgDict) : MemState :=
  { m with messages := aset u q m.messages }

/-! ## The wire codecs (`shared/protocol.py`)

Bytes are modelled as `List Char` (the traffic is ASCII); JSON values as a
mutual inductive; `json.dumps` / `json.loads` are modelled for the JSON
fragment the protocol traffics in — objects, arrays, strings without
characters that `dumps` escapes, integers and the three literals. -/

mutual
inductive Json where
  | null : Json
  | bool (b : Bool) : Json
  | num (n : Int) : Json
  | str (s : List Char) : Json
  | arr (xs : JsonList) : Json
  | obj (kvs : JsonKVs) : Json
deriving DecidableEq
inductive JsonList where
  | nil : JsonList
  | cons (x : Json) (xs : JsonList) : JsonList
deriving DecidableEq
inductive JsonKVs where
  | nil : JsonKVs
  | cons (k : List Char) (v : Json) (kvs : JsonKVs) : JsonKVs
deriving DecidableEq
end

/-- Python truthiness of a decoded JSON value. -/
def jTruthy : Json → Bool
  | .null => false
  | .bool b => b
  | .num n => !(n == 0)
  | .str s => !s.isEmpty
  | .arr .nil => false
  | .arr (.cons _ _) => true
  | .obj .nil => false
  | .obj (.cons _ _ _) => true

def isDigitCh (c : Char) : Bool := 48 ≤ c.toNat && c.toNat ≤ 57

def digitChar (n : Nat) : Char := Char.ofNat (48 + n)

/-- `str(n)` for a natural number, most significant digit first; the fuel
argument only bounds the digit count and `n + 1` always suffices. -/
def natToDigitsAux : Nat → Nat → List Char
  | 0, _ => []
  | fuel + 1, n =>
      if n < 10 then [digitChar n]
      else natToDigitsAux fuel (n / 10) ++ [digitChar (n % 10)]

def natToDigits (n : Nat) : List Char := natToDigitsAux (n + 1) n

/-- `str(n)` for a Python int. -/
def intToChars (n : Int) : List Char :=
  if n < 0 then '-' :: natToDigits n.natAbs else natToDigits n.toNat

/-- Greedy decimal scan with an accumulator. -/
def parseDigitsAux (acc : Nat) : List Char → Nat × List Char
  | [] => (acc, [])
  | c :: rest =>
      if isDigitCh c then parseDigitsAux (acc * 10 + (c.toNat - 48)) rest
      else (acc, c :: rest)

/-- `int(s)` restricted to all-digit strings — the only shape the decoders
ever feed it on the inputs settled here. -/
def parsePyInt (s : List Char) : Option Nat :=
  if s.isEmpty then none
  else if s.all isDigitCh then some (parseDigitsAux 0 s).1
  else none

mutual
def jsonDumps : Json → List Char
  | .num n => intToChars n
  | .bool true => ['t', 'r', 'u', 'e']
  | .null => ['n', 'u', 'l', 'l']
  | .bool false => ['f', 'a', 'l', 's', 'e']
  | .str s => '"' :: s ++ ['"']
  | .arr xs => '[' :: dumpsList xs ++ [']']
  | .obj kvs => '\x7b' :: dumpsKVs kvs ++ ['\x7d']
def dumpsList : JsonList → List Char
  | .nil => []
  | .cons x .nil => jsonDumps x
  | .cons x (.cons y ys) => jsonDumps x ++ [',', ' '] ++ dumpsList (.cons y ys)
def dumpsKVs : JsonKVs → List Char
  | .nil => []
  | .cons k v .nil => '"' :: k ++ ['"', ':', ' '] ++ jsonDumps v
  | .cons k v (.cons k2 v2 kvs) =>
      ('"' :: k ++ ['"', ':', ' '] ++ jsonDumps v) ++ [',', ' ']
        ++ dumpsKVs (.cons k2 v2 kvs)
end

def isSpaceCh (c : Char) : Bool :=
  c == '\t' || c == '\n' || c == '\r' || c == ' '

def skipWs (s : List Char) : List Char := s.dropWhile (fun c => c == ' ')

/-- The body of a JSON string up to its closing quote (no escapes: the
modelled fragment has none). -/
def parseStrBody : List Char → Option (List Char × List Char)
  | [] => none
  | c :: rest =>
      if c == '"' then some ([], rest)
      else (parseStrBody rest).map (fun p => (c :: p.1, p.2))

mutual
def parseJ : Nat → List Char → Option (Json × List Char)
  | 0, _ => none
  | fuel + 1, s =>
      match skipWs s with
      | [] => none
      | c :: rest =>
          if c = 'n' then
            (match rest with
             | 'u' :: 'l' :: 'l' :: r => some (.null, r)
             | _ => none)
          else if c = 't' then
            (match rest with
             | 'r' :: 'u' :: 'e' :: r => some (.bool true, r)
             | _ => none)
          else if c = 'f' then
            (match rest with
             | 'a' :: 'l' :: 's' :: 'e' :: r => some (.bool false, r)
             | _ => none)
          else if c = '"' then
            (parseStrBody rest).map (fun p => (.str p.1, p.2))
          else if c = '[' then
            (if (skipWs rest).head? = some ']' then
               some (.arr .nil, (skipWs rest).tail)
             else
               match parseItems fuel (skipWs rest) with
               | some (xs, r3) => some (.arr xs, r3)
               | none => none)
          else if c = '\x7b' then
            (if (skipWs rest).head? = some '\x7d' then
               some (.obj .nil, (skipWs rest).tail)
             else
               match parseKVs fuel (skipWs rest) with
               | some (kvs, r3) => some (.obj kvs, r3)
               | none => none)
          else if c = '-' then
            (match rest with
             | c2 :: _ =>
                 if isDigitCh c2 then
                   let p := parseDigitsAux 0 rest
                   some (.num (-(p.1 : Int)), p.2)
                 else none
             | [] => none)
          else if isDigitCh c then
            let p := parseDigitsAux 0 (c :: rest)
            some (.num (p.1 : Int), p.2)
          else none
def parseItems : Nat → List Char → Option (JsonList × List Char)
  | 0, _ => none
  | fuel + 1, s =>
      match parseJ fuel s with
      | none => none
      | some (x, r) =>
          match skipWs r with
          | [] => none
          | c :: r2 =>
              if c = ',' then
                (match parseItems fuel r2 with
                 | some (xs, r3) => some (.cons x xs, r3)
                 | none => none)
              else if c = ']' then some (.cons x .nil, r2)
              else none
def parseKVs : Nat → List Char → Option (JsonKVs × List Char)
  | 0, _ => none
  | fuel + 1, s =>
      match skipWs s with
      | [] => none
      | c :: r =>
          if c = '"' then
            (match parseStrBody r with
             | none => none
             | some (k, r2) =>
                 match skipWs r2 with
                 | [] => none
                 | c2 :: r3 =>
                     if c2 = ':' then
                       (match parseJ fuel r3 with
                        | none => none
                        | some (v, r4) =>
                            match skipWs r4 with
                            | [] => none
                            | c3 :: r5 =>
                                if c3 = ',' then
                                  (match parseKVs fuel r5 with
                                   | some (kvs, r6) => some (.cons k v kvs, r6)
                                   | none => none)
                                else if c3 = '\x7d' then
                                  some (.cons k v .nil, r5)
                                else none)
                     else none)
          else none
end

/-- `json.loads`: parse one value, reject trailing garbage. -/
def jsonLoads (s : List Char) : Option Json :=
  match parseJ (2 * s.length + 2) s with
  | some (v, rest) => if (skipWs rest).isEmpty then some v else none
  | none => none

/-- `str.strip()` for the whitespace the codecs can meet. -/
def pyStrip (cs : List Char) : List Char :=
  (((cs.dropWhile isSpaceCh).reverse).dropWhile isSpaceCh).reverse

/-- A record with fields drawn from `{action, status, error, data}`. -/
structure Rec where
  action : Option (List Char)
  status : Option (List Char)
  error : Option (List Char)
  data : Option Json
deriving DecidableEq

def optCons (k : List Char) (v : Option Json) (rest : JsonKVs) : JsonKVs :=
  match v with
  | some j => .cons k j rest
  | none => rest

/-- The record as the Python dict it is (insertion order
action, status, error, data). -/
def recToJson (r : Rec) : Json :=
  .obj (optCons "action".toList (r.action.map Json.str)
    (optCons "status".toList (r.status.map Json.str)
      (optCons "error".toList (r.error.map Json.str)
        (optCons "data".toList r.data .nil))))

/-- `JSONProtocol.encode`. -/
def json_encode (r : Rec) : List Char := jsonDumps (recToJson r)

/-- The brace-depth scanning loop of `JSONProtocol.decode`: `cur` is the
span since the last depth-zero crossing, `acc` the records decoded so
far. -/
def splitDecodeAux : List Char → Int → List Char → List Json → List Json
  | [], _, _, acc => acc.reverse
  | c :: rest, stack, cur, acc =>
      let stack2 :=
        if c = '\x7b' then stack + 1
        else if c = '\x7d' then stack - 1
        else stack
      if stack2 = 0 then
        match jsonLoads (pyStrip (cur ++ [c])) with
        | some m => splitDecodeAux rest stack2 [] (m :: acc)
        | none => splitDecodeAux rest stack2 [] acc
      else splitDecodeAux rest stack2 (cur ++ [c]) acc

/-- `JSONProtocol.decode`. -/
def json_decode (bs : List Char) : List Json :=
  splitDecodeAux (pyStrip bs) 0 [] []

/-- The compact codec's action table. -/
def ACTIONS : List (List Char) :=
  ["create_account".toList, "login".toList, "listen".toList,
   "list_accounts".toList, "send_message".toList, "receive_message".toList,
   "read_messages".toList, "delete_messages".toList, "logout".toList,
   "delete_account".toList]

def listIndex (x : List Char) : List (List Char) → Option Nat
  | [] => none
  | y :: ys => if y == x then some 0 else (listIndex x ys).map (· + 1)

/-- `'1' + str(ACTIONS.index(action)) if action in ACTIONS else '00'`. -/
def actionBlock : Option (List Char) → List Char
  | some a =>
      (match listIndex a ACTIONS with
       | some i => '1' :: natToDigits i
       | none => ['0', '0'])
  | none => ['0', '0']

/-- `('11' if status == 'success' else '10') if status else '00'`. -/
def statusBlock : Option (List Char) → List Char
  | some st =>
      if st.isEmpty then ['0', '0']
      else if st == "success".toList then ['1', '1'] else ['1', '0']
  | none => ['0', '0']

/-- `str(len(error)) + ':' + error if error else '0'`. -/
def errorBlock : Option (List Char) → List Char
  | some e => if e.isEmpty then ['0'] else natToDigits e.length ++ ':' :: e
  | none => ['0']

/-- `json.dumps(data) if data else '0'`. -/
def dataBlock : Option Json → List Char
  | some dt => if jTruthy dt then jsonDumps dt else ['0']
  | none => ['0']

def cp_payload (r : Rec) : List Char :=
  actionBlock r.action
    ++ (statusBlock r.status ++ (errorBlock r.error ++ dataBlock r.data))

/-- `CustomizedProtocol.encode`. -/
def cp_encode (r : Rec) : List Char :=
  natToDigits (cp_payload r).length ++ ':' :: cp_payload r

/-- `ACTIONS[int(action_s[1])] if action_s[0] == '1' else None`. -/
def decodeActionField (action_s : List Char) : Option (List Char) :=
  match action_s with
  | ['1', c] => if isDigitCh c then ACTIONS.get? (c.toNat - 48) else none
  | _ => none

/-- `'success' if status_s == '11' else 'error' if status_s == '10' else None`. -/
def decodeStatusField (status_s : List Char) : Option (List Char) :=
  if status_s == ['1', '1'] then some "success".toList
  else if status_s == ['1', '0'] then some "error".toList
  else none

/-- `CustomizedProtocol.parse_components`; `none` models an exception
caught by the decode loop. -/
def parse_components (msg : List Char) : Option Rec :=
  let action_s := msg.take 2
  let status_s := (msg.drop 2).take 2
  let remainder := msg.drop 4
  let action : Option (List Char) := decodeActionField action_s
  let status : Option (List Char) := decodeStatusField status_s
  match remainder with
  | [] => none
  | r0 :: _ =>
      let errData : Option (List Char × List Char) :=
        if r0 = '0' then some ([], remainder.drop 1)
        else
          match remainder.findIdx? (fun c => c == ':') with
          | none => none
          | some i =>
              match parsePyInt (remainder.take i) with
              | none => none
              | some el =>
                  some (((remainder.drop (i + 1)).take el),
                        ((remainder.drop (i + 1)).drop el))
      match errData with
      | none => none
      | some (err, dataStr) =>
          let dataJson : Option (Option Json) :=
            if dataStr.isEmpty then some none
            else
              match jsonLoads dataStr with
              | some j => some (some j)
              | none => none
          match dataJson with
          | none => none
          | some dj =>
              some { action := action,
                     status := status,
                     error := if err.isEmpty then none else some err,
                     data :=
                       match dj with
                       | some j => if jTruthy j then some j else none
                       | none => none }

/-- The `CustomizedProtocol.decode` loop, fuelled by the input length (each
round consumes at least the length prefix and its colon). -/
def cp_decodeAux : Nat → List Char → List Rec → List Rec
  | 0, _, acc => acc.reverse
  | fuel + 1, text, acc =>
      if text.isEmpty then acc.reverse
      else
        match text.findIdx? (fun c => c == ':') with
        | none => acc.reverse
        | some i =>
            match parsePyInt (text.take i) with
            | none => acc.reverse
            | some msgLen =>
                let after := text.drop (i + 1)
                if after.length < msgLen then acc.reverse
                else
                  match parse_components (after.take msgLen) with
                  | none => acc.reverse
                  | some r => cp_decodeAux fuel (after.drop msgLen) (r :: acc)

/-- `CustomizedProtocol.decode`. -/
def cp_decode (bs : List Char) : List Rec :=
  cp_decodeAux bs.length (pyStrip bs) []

/-! ## Decimal rendering round-trips -/

def digitsVal (acc : Nat) (ds : List Char) : Nat :=
  ds.foldl (fun a c => a * 10 + (c.toNat - 48)) acc

/-- The input left for the parser after a rendered number must not continue
with a digit. -/
def HeadNotDigit : List Char → Prop
  | [] => True
  | c :: _ => isDigitCh c = false

/-! ## `loads ∘ dumps` on the safe JSON fragment -/

/-- Characters `json.dumps` passes through verbatim and the brace scanner
never miscounts: no quote, backslash or brace. -/
def safeChar (c : Char) : Bool :=
  !(c == '"') && !(c == '\\') && !(c == '\x7b') && !(c == '\x7d')

mutual
def safeJ : Json → Bool
  | .null => true
  | .bool _ => true
  | .num _ => true
  | .str s => s.all safeChar
  | .arr xs => safeL xs
  | .obj kvs => safeK kvs
def safeL : JsonList → Bool
  | .nil => true
  | .cons x xs => safeJ x && safeL xs
def safeK : JsonKVs → Bool
  | .nil => true
  | .cons k v kvs => k.all safeChar && safeJ v && safeK kvs
end

mutual
def jsize : Json → Nat
  | .arr xs => 1 + jsizeL xs
  | .obj kvs => 1 + jsizeK kvs
  | .str _ => 1
  | .num _ => 1
  | .bool _ => 1
  | .null => 1
def jsizeL : JsonList → Nat
  | .nil => 1
  | .cons x xs => 1 + jsize x + jsizeL xs
def jsizeK : JsonKVs → Nat
  | .nil => 1
  | .cons _ v kvs => 1 + jsize v + jsizeK kvs
end

/-! ## The brace scanner of `JSONProtocol.decode` -/

def braceDelta (c : Char) : Int :=
  if c = '\x7b' then 1 else if c = '\x7d' then -1 else 0

def bal (cs : List Char) : Int := (cs.map braceDelta).sum

/-- Dyck property: total brace balance zero, every prefix non-negative. -/
def Balanced (cs : List Char) : Prop :=
  bal cs = 0 ∧ ∀ k, 0 ≤ bal (cs.take k)

/-! ## The compact codec round-trip -/

def actionValid : Option (List Char) → Bool
  | none => true
  | some a => ACTIONS.contains a

def statusValid : Option (List Char) → Bool
  | none => true
  | some st => st == "success".toList || st == "error".toList

def errorValid : Option (List Char) → Bool
  | none => true
  | some e => !e.isEmpty

def dataValid : Option Json → Bool
  | none => true
  | some dt => jTruthy dt

/-- Records the compact codec can transport faithfully: the action is
listed (or absent), the status is one of the two encodable words (or
absent), the error is nonempty (or absent) and the data is truthy (or
absent). -/
def ValidRec (r : Rec) : Bool :=
  actionValid r.action &&
    (statusValid r.status && (errorValid r.error && dataValid r.data))

def strSafe : Option (List Char) → Bool
  | none => true
  | some s => s.all safeChar

def dataSafe : Option Json → Bool
  | none => true
  | some dt => safeJ dt

/-- Records whose string content stays inside the escape-free fragment. -/
def SafeRec (r : Rec) : Bool :=
  strSafe r.action &&
    (strSafe r.status && (strSafe r.error && dataSafe r.data))

theorem sliceFrom_neg_coe (msgs : List M) (N : Nat) (h : 0 < N) :
    sliceFrom (-(N : Int)) msgs = msgs.drop (msgs.length - N) := by
  unfold sliceFrom
  rw [if_pos (by exact_mod_cast Int.neg_neg_of_pos (by exact_mod_cast h))]
  congr 1
  omega

theorem sliceTo_neg_coe (msgs : List M) (N : Nat) (h : 0 < N) :
    sliceTo (-(N : Int)) msgs = msgs.take (msgs.length - N) := by
  unfold sliceTo
  rw [if_pos (by exact_mod_cast Int.neg_neg_of_pos (by exact_mod_cast h))]
  congr 1
  omega

theorem sliceFrom_coe (msgs : List M) (N : Nat) :
    sliceFrom (N : Int) msgs = msgs.drop N := by
  unfold sliceFrom
  rw [if_neg (by omega)]
  simp

theorem sliceTo_coe (msgs : List M) (N : Nat) :
    sliceTo (N : Int) msgs = msgs.take N := by
  unfold sliceTo
  rw [if_neg (by omega)]
  simp

/-- C1: for a strictly positive count `N`, `get_and_clear_messages` returns
the `N` most recently arrived messages newest-first and leaves the older
prefix in its original order; for `-N` it returns the `N` oldest messages
oldest-first and leaves the newer suffix; in both cases the reported
remaining count is the length of the queue left behind. -/
theorem get_and_clear_messages_signed (msgs : List M) (N : Nat) (h : 0 < N) :
    get_and_clear_messages msgs (N : Int)
      = ((msgs.drop (msgs.length - N)).reverse,
          msgs.take (msgs.length - N),
          (msgs.take (msgs.length - N)).length) ∧
    get_and_clear_messages msgs (-(N : Int))
      = (msgs.take N, msgs.drop N, (msgs.drop N).length) := by
  constructor
  · unfold get_and_clear_messages
    rw [if_neg (by omega)]
    rw [sliceFrom_neg_coe msgs N h, sliceTo_neg_coe msgs N h]
  · unfold get_and_clear_messages
    rw [if_pos (by exact_mod_cast Int.neg_neg_of_pos (by exact_mod_cast h))]
    have habs : (Int.natAbs (-(N : Int)) : Int) = (N : Int) := by omega
    rw [habs, sliceFrom_coe, sliceTo_coe]

/-- Witness for C1 on the concrete queue `[0, 1, 2]` with count 2. -/
theorem get_and_clear_messages_signed_witness :
    0 < 2 ∧
    get_and_clear_messages ([0, 1, 2] : List Nat) (2 : Int) = ([2, 1], [0], 1) ∧
    get_and_clear_messages ([0, 1, 2] : List Nat) (-(2 : Int)) = ([0, 1], [2], 1) := by
  refine ⟨by decide, ?_⟩
  have h := get_and_clear_messages_signed ([0, 1, 2] : List Nat) 2 (by decide)
  simpa using h

/-- C10: with count 0 the in-memory drain takes the non-negative branch,
`msgs[-0:]` is the whole list, so every queued message is returned
newest-first and the queue is left empty with remaining count 0. -/
theorem get_and_clear_messages_zero (msgs : List M) :
    get_and_clear_messages msgs 0 = (msgs.reverse, [], 0) := by
  unfold get_and_clear_messages sliceFrom sliceTo
  simp

/-- C3 counterexample: deleting 1 message from the queue `[0, 1, 2]` with a
positive count removes the oldest message, leaving `[1, 2]`, not the
most-recently-arrived one (which would leave `[0, 1]`). -/
theorem delete_messages_positive_counterexample :
    delete_messages ([0, 1, 2] : List Nat) 1 = (1, [1, 2]) ∧
    ¬ delete_messages ([0, 1, 2] : List Nat) 1 = (1, [0, 1]) := by
  constructor
  · decide
  · decide

/-- C3 amended: `delete_messages` uses the direction convention opposite to
the drain: a strictly positive count discards the oldest `N` messages and a
strictly negative count discards the newest `N`; the reported count is the
number actually deleted. -/
theorem delete_messages_signed (msgs : List M) (N : Nat) (h : 0 < N) :
    delete_messages msgs (N : Int) = (min N msgs.length, msgs.drop N) ∧
    delete_messages msgs (-(N : Int))
      = (min N msgs.length, msgs.take (msgs.length - N)) := by
  constructor
  · unfold delete_messages
    rw [if_pos (by omega), sliceFrom_coe]
    simp only [List.length_drop]
    congr 1
    omega
  · unfold delete_messages
    rw [if_neg (by omega), sliceTo_neg_coe msgs N h]
    simp only [List.length_take]
    congr 1
    omega

/-- Witness for the amended C3 on the concrete queue `[0, 1, 2]` with count 2. -/
theorem delete_messages_signed_witness :
    0 < 2 ∧
    delete_messages ([0, 1, 2] : List Nat) (2 : Int) = (2, [2]) ∧
    delete_messages ([0, 1, 2] : List Nat) (-(2 : Int)) = (2, [0]) := by
  refine ⟨by decide, ?_⟩
  have h := delete_messages_signed ([0, 1, 2] : List Nat) 2 (by decide)
  simpa using h

theorem alookup_aset_self (k : String) (v : β) (m : List (String × β)) :
    alookup k (aset k v m) = some v := by
  induction m with
  | nil => simp [aset, alookup]
  | cons hd tl ih =>
      obtain ⟨k2, v2⟩ := hd
      by_cases h : k2 = k
      · simp [aset, alookup, h]
      · simp [aset, alookup, h, ih]

theorem alookup_aset_ne (k k2 : String) (v : β) (m : List (String × β))
    (h : k2 ≠ k) : alookup k2 (aset k v m) = alookup k2 m := by
  induction m with
  | nil => simp [aset, alookup, Ne.symm h]
  | cons hd tl ih =>
      obtain ⟨k3, v3⟩ := hd
      by_cases h3 : k3 = k
      · subst h3
        simp [aset, alookup, Ne.symm h]
      · simp [aset, alookup, h3, ih]

theorem alookup_aerase_self (k : String) (m : List (String × β)) :
    alookup k (aerase k m) = none := by
  induction m with
  | nil => simp [aerase, alookup]
  | cons hd tl ih =>
      obtain ⟨k2, v2⟩ := hd
      by_cases h : k2 = k
      · simpa [aerase, h] using ih
      · simpa [aerase, alookup, h] using ih

theorem alookup_mem (k : String) (v : β) (m : List (String × β))
    (h : alookup k m = some v) : (k, v) ∈ m := by
  induction m with
  | nil => simp [alookup] at h
  | cons hd tl ih =>
      obtain ⟨k2, v2⟩ := hd
      by_cases h2 : k2 = k
      · subst h2
        simp [alookup] at h
        simp [h]
      · simp only [alookup, if_neg h2] at h
        exact List.mem_cons_of_mem _ (ih h)

/-- C5: deleting an account removes the account, its message queue, its
connection registrations and every session bound to the username in one
step; afterwards no session token resolves to that username. -/
theorem delete_account_cascade (s : MemState) (u : String) :
    account_exist (delete_account s u) u = false ∧
    alookup u (delete_account s u).messages = none ∧
    alookup u (delete_account s u).clients = none ∧
    (∀ token sess, alookup token (delete_account s u).sessions = some sess →
       sess.username ≠ u) ∧
    (∀ token now, validate_session (delete_account s u) token now ≠ some u) := by
  have hsess : ∀ token sess,
      alookup token (delete_account s u).sessions = some sess →
      sess.username ≠ u := by
    intro token sess h
    have hm := alookup_mem _ _ _ h
    simp only [delete_account, List.mem_filter] at hm
    simpa using hm.2
  refine ⟨?_, ?_, ?_, hsess, ?_⟩
  · simp [delete_account, account_exist, alookup_aerase_self]
  · simp [delete_account, alookup_aerase_self]
  · simp [delete_account, alookup_aerase_self]
  · intro token now
    unfold validate_session
    cases htok : alookup token (delete_account s u).sessions with
    | none => simp
    | some sess =>
        have := hsess token sess htok
        by_cases hle : now ≤ sess.expiry_time <;> simp [hle, this]

/-- Witness for C5 on a one-user, one-session state. -/
theorem delete_account_cascade_witness :
    account_exist
        (delete_account
          ⟨[("alice", "#pw")], [("alice", [])], [("alice", [("t", 0)])],
           [("t", ⟨"alice", 5⟩)]⟩ "alice") "alice" = false ∧
    validate_session
        (delete_account
          ⟨[("alice", "#pw")], [("alice", [])], [("alice", [("t", 0)])],
           [("t", ⟨"alice", 5⟩)]⟩ "alice") "t" 0 ≠ some "alice" := by
  have h := delete_account_cascade
    ⟨[("alice", "#pw")], [("alice", [])], [("alice", [("t", 0)])],
     [("t", ⟨"alice", 5⟩)]⟩ "alice"
  exact ⟨h.1, h.2.2.2.2 "t" 0⟩

/-- C6: a session created by `login` at time `t0` carries expiry
`t0 + TOKEN_EXPIRY_TIME`; `validate_session` resolves its token to the
username at any time up to the expiry, returns `none` strictly after it,
and returns `none` for a token absent from the session table. -/
theorem validate_session_expiry (s : MemState) (u p tk : String) (t0 : ℚ)
    (hu : alookup u s.users = some (hash_password p)) :
    (∀ now : ℚ, now ≤ t0 + TOKEN_EXPIRY_TIME →
        validate_session (login s u p tk t0).2 tk now = some u) ∧
    (∀ now : ℚ, t0 + TOKEN_EXPIRY_TIME < now →
        validate_session (login s u p tk t0).2 tk now = none) ∧
    (∀ (st : MemState) tok (now : ℚ), alookup tok st.sessions = none →
        validate_session st tok now = none) := by
  have hlogin : (login s u p tk t0).2
      = { s with sessions := aset tk ⟨u, t0 + TOKEN_EXPIRY_TIME⟩ s.sessions } := by
    simp [login, hu]
  refine ⟨?_, ?_, ?_⟩
  · intro now hnow
    unfold validate_session
    rw [hlogin]
    simp only [alookup_aset_self]
    simp [hnow]
  · intro now hnow
    unfold validate_session
    rw [hlogin]
    simp only [alookup_aset_self]
    simp [not_le.mpr hnow]
  · intro st tok now hnone
    unfold validate_session
    rw [hnone]

/-- Witness for C6: login `alice` at time 0, validate at times 3000 and
3001. -/
theorem validate_session_expiry_witness :
    alookup "alice" (⟨[("alice", "#pw")], [("alice", [])], [], []⟩ :
        MemState).users = some (hash_password "pw") ∧
    validate_session
      (login ⟨[("alice", "#pw")], [("alice", [])], [], []⟩ "alice" "pw" "t" 0).2
      "t" 3000 = some "alice" ∧
    validate_session
      (login ⟨[("alice", "#pw")], [("alice", [])], [], []⟩ "alice" "pw" "t" 0).2
      "t" 3001 = none := by
  have hu : alookup "alice" (⟨[("alice", "#pw")], [("alice", [])], [], []⟩ :
      MemState).users = some (hash_password "pw") := by
    simp [alookup, hash_password]
  have h := validate_session_expiry
    ⟨[("alice", "#pw")], [("alice", [])], [], []⟩ "alice" "pw" "t" 0 hu
  refine ⟨hu, h.1 3000 (by norm_num [TOKEN_EXPIRY_TIME]),
    h.2.1 3001 (by norm_num [TOKEN_EXPIRY_TIME])⟩

/-- C7 counterexample: on the empty store, `create_account("", "")` at the
Store level succeeds — the emptiness rejection does not live in the
Store. -/
theorem create_account_empty_counterexample :
    (create_account MemState.init "" "").1 = (true, none) ∧
    ¬ (create_account MemState.init "" "").1.1 = false := by
  constructor
  · rfl
  · decide

/-- C7 amended: the empty-field rejection is performed by the request
handler (error "Missing username or password"), not by
`Store.create_account`; the Store itself fails exactly on an existing
username, with "Username already exists", so calling it twice with the same
username succeeds once and fails the second time. -/
theorem create_account_spec (s : MemState) (u p : String) :
    (account_exist s u = false →
       (create_account s u p).1 = (true, none) ∧
       account_exist (create_account s u p).2 u = true) ∧
    (account_exist s u = true →
       (create_account s u p).1 = (false, some "Username already exists") ∧
       (create_account s u p).2 = s) ∧
    (∀ pw, handle_create_account s none pw
        = (⟨"create_account", "error", some "Missing username or password"⟩, s)) ∧
    (∀ pw, handle_create_account s (some "") pw
        = (⟨"create_account", "error", some "Missing username or password"⟩, s)) ∧
    (∀ un, handle_create_account s un none
        = (⟨"create_account", "error", some "Missing username or password"⟩, s)) ∧
    (∀ un, handle_create_account s un (some "")
        = (⟨"create_account", "error", some "Missing username or password"⟩, s)) := by
  refine ⟨?_, ?_, ?_, ?_, ?_, ?_⟩
  · intro h
    have h2 : (alookup u s.users).isSome = false := h
    constructor
    · simp [create_account, account_exist, h2]
    · simp [create_account, account_exist, h2, alookup_aset_self]
  · intro h
    constructor
    · simp [create_account, h]
    · simp [create_account, h]
  · intro pw
    simp [handle_create_account, pyTruthy]
  · intro pw
    simp [handle_create_account, pyTruthy]
  · intro un
    simp [handle_create_account, pyTruthy]
  · intro un
    simp [handle_create_account, pyTruthy]

/-- Witness for the amended C7: create `alice` twice from the empty store,
and reject an empty username at the handler. -/
theorem create_account_spec_witness :
    (create_account MemState.init "alice" "pw").1 = (true, none) ∧
    (create_account (create_account MemState.init "alice" "pw").2
        "alice" "pw2").1 = (false, some "Username already exists") ∧
    handle_create_account MemState.init (some "") (some "x")
      = (⟨"create_account", "error", some "Missing username or password"⟩,
         MemState.init) := by
  have h1 := create_account_spec MemState.init "alice" "pw"
  have hfirst := h1.1 (by decide)
  have h2 := create_account_spec (create_account MemState.init "alice" "pw").2
    "alice" "pw2"
  exact ⟨hfirst.1, (h2.2.1 hfirst.2).1, (h1.2.2.2.1 (some "x"))⟩

/-- C9: with a valid session, non-empty recipient and body, and an existing
recipient account, `send_message` attempts a push to every live connection
registered for the recipient (carrying the session's username as sender),
answers "success", leaves the store untouched when some send succeeded and
otherwise enqueues `{"sender": session-username, "message": body}` at the
end of the recipient's queue. -/
theorem send_message_spec (s : MemState) (sendOk : Nat → Bool)
    (tk u recip msg : String) (q : List MsgDict) (now : ℚ)
    (hsess : validate_session s tk now = some u) (hu : u ≠ "")
    (hrecip : recip ≠ "") (hmsg : msg ≠ "")
    (hacct : account_exist s recip = true)
    (hq : alookup recip s.messages = some q) :
    (handle_send_message s sendOk (some tk) (some recip) (some msg) now).1
      = ⟨"send_message", "success", none⟩ ∧
    (handle_send_message s sendOk (some tk) (some recip) (some msg) now).2.2
      = (((alookup recip s.clients).getD []).map Prod.snd).map
          (fun sock => (sock, u, msg)) ∧
    ((((alookup recip s.clients).getD []).map Prod.snd).any sendOk = true →
      (handle_send_message s sendOk (some tk) (some recip) (some msg) now).2.1
        = s) ∧
    ((((alookup recip s.clients).getD []).map Prod.snd).any sendOk = false →
      alookup recip
        (handle_send_message s sendOk (some tk) (some recip) (some msg)
          now).2.1.messages
        = some (q ++ [[("sender", some u), ("message", some msg)]])) := by
  have hbody : handle_send_message s sendOk (some tk) (some recip) (some msg) now
      = (⟨"send_message", "success", none⟩,
         (if (((alookup recip s.clients).getD []).map Prod.snd).any sendOk then s
          else add_message s recip [("sender", some u), ("message", some msg)]),
         (((alookup recip s.clients).getD []).map Prod.snd).map
           (fun sock => (sock, u, msg))) := by
    simp [handle_send_message, hsess, pyTruthy, hu, hrecip, hmsg, hacct]
  refine ⟨by rw [hbody], by rw [hbody], ?_, ?_⟩
  · intro hdel
    rw [hbody]
    simp [hdel]
  · intro hdel
    rw [hbody]
    rw [hdel]
    simp [add_message, hq, alookup_aset_self]

/-- Witness for C9: `alice` sends to `bob`, whose only registered socket
fails, so the message is enqueued with `alice` as sender. -/
theorem send_message_spec_witness :
    validate_session
        (⟨[("alice", "#a"), ("bob", "#b")], [("alice", []), ("bob", [])],
          [("bob", [("t2", 7)])], [("t", ⟨"alice", 10⟩)]⟩ : MemState)
        "t" 0 = some "alice" ∧
    alookup "bob"
      (handle_send_message
        (⟨[("alice", "#a"), ("bob", "#b")], [("alice", []), ("bob", [])],
          [("bob", [("t2", 7)])], [("t", ⟨"alice", 10⟩)]⟩ : MemState)
        (fun _ => false) (some "t") (some "bob") (some "hi") 0).2.1.messages
      = some [[("sender", some "alice"), ("message", some "hi")]] := by
  have hsess : validate_session
      (⟨[("alice", "#a"), ("bob", "#b")], [("alice", []), ("bob", [])],
        [("bob", [("t2", 7)])], [("t", ⟨"alice", 10⟩)]⟩ : MemState)
      "t" 0 = some "alice" := by
    simp [validate_session, alookup]
  have h := send_message_spec
    (⟨[("alice", "#a"), ("bob", "#b")], [("alice", []), ("bob", [])],
      [("bob", [("t2", 7)])], [("t", ⟨"alice", 10⟩)]⟩ : MemState)
    (fun _ => false) "t" "alice" "bob" "hi" [] 0 hsess (by decide) (by decide)
    (by decide) (by decide) (by simp [alookup])
  refine ⟨hsess, ?_⟩
  have h4 := h.2.2.2 (by simp [alookup])
  simpa using h4

theorem ceil_pages_eq (L s : Nat) (hs : 0 < s) :
    (if L = 0 then 1 else (L - 1) / s + 1) = max 1 ((L + s - 1) / s) := by
  by_cases hL : L = 0
  · subst hL
    have h0 : (0 + s - 1) / s = 0 := Nat.div_eq_of_lt (by omega)
    rw [if_pos rfl, h0]
    exact (Nat.max_eq_left (Nat.zero_le 1)).symm
  · rw [if_neg hL]
    have h1 : L + s - 1 = (L - 1) + s := by omega
    rw [h1, Nat.add_div_right _ hs]
    exact (Nat.max_eq_right (Nat.le_add_left 1 _)).symm

/-- C8: `list_accounts` returns the lexicographically sorted wildcard
matches sliced to the requested page, reports
`total_pages = max 1 ⌈matches / page_size⌉`, yields an empty slice (not an
error) for a page past the last, and on accounts
`[alice, andy, bob]` the call `("a*", 1, 2)` returns
`(["alice", "andy"], 1, 1)`. -/
theorem list_accounts_spec (users : List String) (pattern : String)
    (page page_size : Nat) (_hp : 0 < page) (hs : 0 < page_size) :
    (∃ matched : List String,
      matched.Perm (users.filter (fun n => fnmatch n pattern)) ∧
      matched.Sorted (· ≤ ·) ∧
      list_accounts users pattern page page_size
        = ((matched.drop ((page - 1) * page_size)).take page_size, page,
            max 1 ((matched.length + page_size - 1) / page_size)) ∧
      (max 1 ((matched.length + page_size - 1) / page_size) < page →
        (matched.drop ((page - 1) * page_size)).take page_size = [])) ∧
    list_accounts ["alice", "andy", "bob"] "a*" 1 2 = (["alice", "andy"], 1, 1) := by
  constructor
  · refine ⟨sortedMatches users pattern, ?_, ?_, ?_, ?_⟩
    · exact List.perm_insertionSort _ _
    · exact List.sorted_insertionSort _ _
    · have hslice : pySlice ((page - 1) * page_size)
          ((page - 1) * page_size + page_size) (sortedMatches users pattern)
          = ((sortedMatches users pattern).drop
              ((page - 1) * page_size)).take page_size := by
        unfold pySlice
        rw [List.drop_take]
        congr 1
        omega
      have hpages : (if (sortedMatches users pattern).isEmpty then 1
            else ((sortedMatches users pattern).length - 1) / page_size + 1)
          = max 1 (((sortedMatches users pattern).length + page_size - 1)
              / page_size) := by
        rw [← ceil_pages_eq _ _ hs]
        by_cases h0 : sortedMatches users pattern = []
        · simp [h0]
        · simp [h0, List.isEmpty_iff, List.length_eq_zero]
      unfold list_accounts
      rw [hslice, hpages]
    · intro hlt
      have h2 : ((sortedMatches users pattern).length + page_size - 1)
          / page_size < page := lt_of_le_of_lt (le_max_right _ _) hlt
      have h3 := (Nat.div_lt_iff_lt_mul hs).mp h2
      have hexp : (page - 1) * page_size = page * page_size - 1 * page_size :=
        Nat.sub_mul page 1 page_size
      have h4 : (sortedMatches users pattern).length ≤ (page - 1) * page_size := by
        omega
      rw [List.drop_eq_nil_iff.mpr h4]
      simp
  · simp +decide [list_accounts, sortedMatches, List.insertionSort,
      List.orderedInsert, String.le_iff_toList_le, pySlice]

/-- Witness for C8: the spec's concrete pagination example. -/
theorem list_accounts_spec_witness :
    0 < 1 ∧ 0 < 2 ∧
    list_accounts ["alice", "andy", "bob"] "a*" 1 2 = (["alice", "andy"], 1, 1) := by
  refine ⟨by decide, by decide, ?_⟩
  exact (list_accounts_spec ["alice", "andy", "bob"] "a*" 1 2
    (by decide) (by decide)).2

/-- C4 counterexample, twice over: enqueueing for the unknown recipient
`ghost` is a no-op on the in-memory backend but inserts a row on the
relational one, so a subsequent drain observably differs; and for a known
recipient `bob` the dict the dispatcher actually enqueues — keyed
`sender`/`message` — is stored verbatim by the in-memory backend but read
through `.get("from")` by the relational one, which stores `None` and
drains a `from`-keyed dict, again observably different. -/
theorem backend_unknown_recipient_counterexample :
    ((mem_get_and_clear (add_message MemState.init "ghost"
        [("from", some "alice"), ("message", some "hi")]) "ghost" (-1)).1
      = ([], 0) ∧
    (db_get_and_clear (db_add_message DbState.init "ghost"
        [("from", some "alice"), ("message", some "hi")]) "ghost" (-1)).1
      = ([[("from", some "alice"), ("message", some "hi")]], 0) ∧
    ¬ (([], 0) : List MsgDict × Nat)
        = ([[("from", some "alice"), ("message", some "hi")]], 0)) ∧
    ((mem_get_and_clear (add_message
          (create_account MemState.init "bob" "pw").2 "bob"
          [("sender", some "alice"), ("message", some "hi")]) "bob" 1).1
      = ([[("sender", some "alice"), ("message", some "hi")]], 0) ∧
    (db_get_and_clear (db_add_message
          (db_create_account DbState.init "bob" "pw").2 "bob"
          [("sender", some "alice"), ("message", some "hi")]) "bob" 1).1
      = ([[("from", none), ("message", some "hi")]], 0) ∧
    ¬ ([[("sender", some "alice"), ("message", some "hi")]] : List MsgDict)
        = [[("from", none), ("message", some "hi")]]) := by
  refine ⟨⟨by decide, by decide, by decide⟩, by decide, by decide, by decide⟩

/-! ## Equivalence of the two backends on the message/account seam -/

theorem sliceFrom_neg (xs : List M) (n : Int) (h : n < 0) :
    sliceFrom n xs = xs.drop (xs.length - n.natAbs) := by
  unfold sliceFrom
  rw [if_pos h]
  congr 1
  omega

theorem sliceTo_neg (xs : List M) (n : Int) (h : n < 0) :
    sliceTo n xs = xs.take (xs.length - n.natAbs) := by
  unfold sliceTo
  rw [if_pos h]
  congr 1
  omega

theorem sliceFrom_nonneg (xs : List M) (n : Int) (h : 0 ≤ n) :
    sliceFrom n xs = xs.drop n.toNat := by
  unfold sliceFrom
  rw [if_neg (by omega)]

theorem sliceTo_nonneg (xs : List M) (n : Int) (h : 0 ≤ n) :
    sliceTo n xs = xs.take n.toNat := by
  unfold sliceTo
  rw [if_neg (by omega)]

theorem deleteFetched_eq (rows fetched : List Row) :
    deleteFetched rows fetched
      = rows.filter (fun r => !((fetched.map Row.id).contains r.id)) := by
  unfold deleteFetched
  by_cases h : fetched.isEmpty
  · rw [if_pos h]
    have h2 : fetched = [] := by simpa [List.isEmpty_iff] using h
    subst h2
    simp [List.contains]
  · rw [if_neg h]

theorem filter_comm (p q : α → Bool) (l : List α) :
    (l.filter p).filter q = (l.filter q).filter p := by
  rw [List.filter_filter, List.filter_filter]
  exact List.filter_congr (fun x _ => by rw [Bool.and_comm])

theorem filter_not_mem_take (l : List Row) (k : Nat)
    (h : (l.map Row.id).Nodup) :
    l.filter (fun r => !(((l.take k).map Row.id).contains r.id)) = l.drop k := by
  induction l generalizing k with
  | nil => simp
  | cons a t ih =>
      cases k with
      | zero => simp [List.contains]
      | succ k2 =>
          simp only [List.take_succ_cons, List.map_cons, List.drop_succ_cons]
          rw [List.filter_cons]
          have ha : ((a.id :: (t.take k2).map Row.id).contains a.id) = true := by
            simp
          rw [ha]
          rw [if_neg (by simp)]
          have hnd : (t.map Row.id).Nodup := (List.nodup_cons.mp h).2
          have hna : a.id ∉ t.map Row.id := (List.nodup_cons.mp h).1
          have hcongr : t.filter
              (fun r => !((a.id :: (t.take k2).map Row.id).contains r.id))
              = t.filter (fun r => !(((t.take k2).map Row.id).contains r.id)) := by
            apply List.filter_congr
            intro x hx
            have hxid : x.id ≠ a.id := by
              intro he
              exact hna (he ▸ List.mem_map_of_mem Row.id hx)
            simp [List.contains_cons, hxid]
          rw [hcongr, ih k2 hnd]

theorem filter_not_mem_revtake (l : List Row) (k : Nat)
    (h : (l.map Row.id).Nodup) :
    l.filter (fun r => !(((l.reverse.take k).map Row.id).contains r.id))
      = l.take (l.length - k) := by
  have hrev : (l.reverse.map Row.id).Nodup := by
    rw [List.map_reverse]
    exact List.nodup_reverse.mpr h
  have h1 := filter_not_mem_take l.reverse k hrev
  have h2 : l.filter
      (fun r => !(((l.reverse.take k).map Row.id).contains r.id))
      = (l.reverse.filter
          (fun r => !(((l.reverse.take k).map Row.id).contains r.id))).reverse := by
    rw [List.filter_reverse, List.reverse_reverse]
  rw [h2, h1, List.drop_reverse, List.reverse_reverse]

theorem filter_not_ids_other (rows fetched : List Row) (v : String)
    (hnd : (rows.map Row.id).Nodup)
    (hf : ∀ r ∈ fetched, r ∈ rows ∧ (r.recipient == v) = false) :
    (rows.filter (fun r => r.recipient == v)).filter
        (fun r => !((fetched.map Row.id).contains r.id))
      = rows.filter (fun r => r.recipient == v) := by
  apply List.filter_eq_self.mpr
  intro x hx
  obtain ⟨hxrows, hxv⟩ := List.mem_filter.mp hx
  simp only [Bool.not_eq_true']
  by_contra hcon
  simp only [Bool.not_eq_false, List.contains, List.elem_eq_mem,
    decide_eq_true_eq, List.mem_map] at hcon
  obtain ⟨rf, hrf, hid⟩ := hcon
  have heq : rf = x :=
    List.inj_on_of_nodup_map hnd (hf rf hrf).1 hxrows hid
  have := (hf rf hrf).2
  rw [heq, hxv] at this
  cases this

theorem nodup_ids_of_wf (d : DbState) (hWf : WfDb d) :
    (d.rows.map Row.id).Nodup := by
  have hp : (d.rows.map Row.id).Pairwise (· < ·) :=
    List.pairwise_map.mpr hWf.1
  exact hp.imp Nat.ne_of_lt

theorem nodup_ids_rowsFor (d : DbState) (u : String) (hWf : WfDb d) :
    ((rowsFor d u).map Row.id).Nodup :=
  ((nodup_ids_of_wf d hWf).sublist
    ((List.filter_sublist d.rows).map Row.id))

theorem wf_filter (d : DbState) (p : Row → Bool) (hWf : WfDb d) :
    WfDb { d with rows := d.rows.filter p } := by
  constructor
  · exact hWf.1.sublist (List.filter_sublist d.rows)
  · intro r hr
    exact hWf.2 r (List.mem_filter.mp hr).1

theorem fetched_mem_take (d : DbState) (u : String) (k : Nat) :
    ∀ r ∈ (rowsFor d u).take k, r ∈ d.rows ∧ (r.recipient == u) = true := by
  intro r hr
  have hmem : r ∈ rowsFor d u := ((rowsFor d u).take_sublist k).mem hr
  exact ⟨(List.mem_filter.mp hmem).1, (List.mem_filter.mp hmem).2⟩

theorem fetched_mem_revtake (d : DbState) (u : String) (k : Nat) :
    ∀ r ∈ (rowsFor d u).reverse.take k,
      r ∈ d.rows ∧ (r.recipient == u) = true := by
  intro r hr
  have hmem : r ∈ rowsFor d u :=
    List.mem_reverse.mp (((rowsFor d u).reverse.take_sublist k).mem hr)
  exact ⟨(List.mem_filter.mp hmem).1, (List.mem_filter.mp hmem).2⟩

theorem rowsFor_delete (d : DbState) (u : String) (fetched : List Row) :
    rowsFor { d with rows := deleteFetched d.rows fetched } u
      = (rowsFor d u).filter
          (fun r => !((fetched.map Row.id).contains r.id)) := by
  simp only [rowsFor, deleteFetched_eq]
  exact filter_comm _ _ _

theorem rowsFor_delete_other (d : DbState) (u v : String) (fetched : List Row)
    (hWf : WfDb d) (hv : v ≠ u)
    (hf : ∀ r ∈ fetched, r ∈ d.rows ∧ (r.recipient == u) = true) :
    rowsFor { d with rows := deleteFetched d.rows fetched } v = rowsFor d v := by
  rw [rowsFor_delete]
  have hf2 : ∀ r ∈ fetched, r ∈ d.rows ∧ (r.recipient == v) = false := by
    intro r hr
    obtain ⟨h1, h2⟩ := hf r hr
    refine ⟨h1, ?_⟩
    have : r.recipient = u := by simpa using h2
    simp [this, Ne.symm hv]
  exact filter_not_ids_other d.rows fetched v (nodup_ids_of_wf d hWf) hf2

theorem wf_deleteFetched (d : DbState) (fetched : List Row) (hWf : WfDb d) :
    WfDb { d with rows := deleteFetched d.rows fetched } := by
  rw [deleteFetched_eq]
  exact wf_filter d _ hWf

/-- Full characterisation of `DatabaseStorage.get_and_clear_messages` for a
negative count on a well-formed table. -/
theorem db_get_and_clear_neg (d : DbState) (u : String) (n : Int)
    (hn : n < 0) (hWf : WfDb d) :
    (db_get_and_clear d u n).1
      = ((dbQueue d u).take n.natAbs, ((dbQueue d u).drop n.natAbs).length) ∧
    dbQueue (db_get_and_clear d u n).2 u = (dbQueue d u).drop n.natAbs ∧
    (∀ v, v ≠ u → dbQueue (db_get_and_clear d u n).2 v = dbQueue d v) ∧
    WfDb (db_get_and_clear d u n).2 := by
  have hlu := nodup_ids_rowsFor d u hWf
  have hst : db_get_and_clear d u n
      = ((((rowsFor d u).take n.natAbs).map rowToDict,
          (rowsFor (dbAfterDelete d ((rowsFor d u).take n.natAbs)) u).length),
         dbAfterDelete d ((rowsFor d u).take n.natAbs)) := by
    simp [db_get_and_clear, dbAfterDelete, hn]
  have hsame : rowsFor (dbAfterDelete d ((rowsFor d u).take n.natAbs)) u
      = (rowsFor d u).drop n.natAbs := by
    rw [dbAfterDelete, rowsFor_delete]
    exact filter_not_mem_take _ _ hlu
  refine ⟨?_, ?_, ?_, ?_⟩
  · rw [hst]
    simp [dbQueue, hsame]
  · rw [hst]
    simp [dbQueue, hsame]
  · intro v hv
    rw [hst]
    simp only [dbQueue, dbAfterDelete]
    rw [rowsFor_delete_other d u v _ hWf hv (fetched_mem_take d u n.natAbs)]
  · rw [hst]
    exact wf_deleteFetched d _ hWf

/-- Full characterisation of `DatabaseStorage.get_and_clear_messages` for a
non-negative count on a well-formed table. -/
theorem db_get_and_clear_pos (d : DbState) (u : String) (n : Int)
    (hn : 0 ≤ n) (hWf : WfDb d) :
    (db_get_and_clear d u n).1
      = (((dbQueue d u).drop ((dbQueue d u).length - n.toNat)).reverse,
         ((dbQueue d u).take ((dbQueue d u).length - n.toNat)).length) ∧
    dbQueue (db_get_and_clear d u n).2 u
      = (dbQueue d u).take ((dbQueue d u).length - n.toNat) ∧
    (∀ v, v ≠ u → dbQueue (db_get_and_clear d u n).2 v = dbQueue d v) ∧
    WfDb (db_get_and_clear d u n).2 := by
  have hlu := nodup_ids_rowsFor d u hWf
  have hst : db_get_and_clear d u n
      = (((((rowsFor d u).reverse.take n.toNat).map rowToDict),
          (rowsFor (dbAfterDelete d ((rowsFor d u).reverse.take n.toNat)) u).length),
         dbAfterDelete d ((rowsFor d u).reverse.take n.toNat)) := by
    simp [db_get_and_clear, dbAfterDelete, Int.not_lt.mpr hn]
  have hsame : rowsFor (dbAfterDelete d ((rowsFor d u).reverse.take n.toNat)) u
      = (rowsFor d u).take ((rowsFor d u).length - n.toNat) := by
    rw [dbAfterDelete, rowsFor_delete]
    exact filter_not_mem_revtake _ _ hlu
  have hlen : (dbQueue d u).length = (rowsFor d u).length := by
    simp [dbQueue]
  refine ⟨?_, ?_, ?_, ?_⟩
  · rw [hst]
    simp only [Prod.mk.injEq]
    refine ⟨?_, ?_⟩
    · simp [dbQueue, List.take_reverse]
    · rw [hsame]
      simp [dbQueue]
  · rw [hst]
    simp [dbQueue, hsame, hlen]
  · intro v hv
    rw [hst]
    simp only [dbQueue, dbAfterDelete]
    rw [rowsFor_delete_other d u v _ hWf hv (fetched_mem_revtake d u n.toNat)]
  · rw [hst]
    exact wf_deleteFetched d _ hWf

/-- `MemoryStorage.get_and_clear_messages` for a negative count. -/
theorem mem_get_and_clear_neg (m : MemState) (u : String) (n : Int)
    (hn : n < 0) :
    mem_get_and_clear m u n
      = ((((alookup u m.messages).getD []).take n.natAbs,
          (((alookup u m.messages).getD []).drop n.natAbs).length),
         memSetQueue m u (((alookup u m.messages).getD []).drop n.natAbs)) := by
  have h1 := sliceTo_coe ((alookup u m.messages).getD []) n.natAbs
  have h2 := sliceFrom_coe ((alookup u m.messages).getD []) n.natAbs
  simp only [mem_get_and_clear, get_and_clear_messages, memSetQueue,
    if_pos hn, h1, h2]

/-- `MemoryStorage.get_and_clear_messages` for a strictly positive count. -/
theorem mem_get_and_clear_pos (m : MemState) (u : String) (n : Int)
    (hn : 0 < n) :
    mem_get_and_clear m u n
      = (((((alookup u m.messages).getD []).drop
             (((alookup u m.messages).getD []).length - n.natAbs)).reverse,
          (((alookup u m.messages).getD []).take
             (((alookup u m.messages).getD []).length - n.natAbs)).length),
         memSetQueue m u (((alookup u m.messages).getD []).take
           (((alookup u m.messages).getD []).length - n.natAbs))) := by
  have h1 := sliceFrom_neg ((alookup u m.messages).getD []) (-n) (by omega)
  have h2 := sliceTo_neg ((alookup u m.messages).getD []) (-n) (by omega)
  simp only [Int.natAbs_neg] at h1 h2
  simp only [mem_get_and_clear, get_and_clear_messages, memSetQueue,
    if_neg (Int.not_lt.mpr (le_of_lt hn)), h1, h2]

theorem rowsFor_after_take (d : DbState) (u : String) (k : Nat) (hWf : WfDb d) :
    rowsFor (dbAfterDelete d ((rowsFor d u).take k)) u = (rowsFor d u).drop k := by
  rw [dbAfterDelete, rowsFor_delete]
  exact filter_not_mem_take _ _ (nodup_ids_rowsFor d u hWf)

theorem rowsFor_after_revtake (d : DbState) (u : String) (k : Nat)
    (hWf : WfDb d) :
    rowsFor (dbAfterDelete d ((rowsFor d u).reverse.take k)) u
      = (rowsFor d u).take ((rowsFor d u).length - k) := by
  rw [dbAfterDelete, rowsFor_delete]
  exact filter_not_mem_revtake _ _ (nodup_ids_rowsFor d u hWf)

theorem db_delete_messages_nonneg (d : DbState) (u : String) (n : Int)
    (hn : 0 ≤ n) (hWf : WfDb d) :
    (db_delete_messages d u n).1
      = (dbQueue d u).length - ((dbQueue d u).drop n.toNat).length ∧
    dbQueue (db_delete_messages d u n).2 u = (dbQueue d u).drop n.toNat ∧
    WfDb (db_delete_messages d u n).2 := by
  have hst : db_delete_messages d u n
      = ((rowsFor d u).length -
          (rowsFor (dbAfterDelete d ((rowsFor d u).take n.toNat)) u).length,
         dbAfterDelete d ((rowsFor d u).take n.toNat)) := by
    simp [db_delete_messages, dbAfterDelete, hn]
  have hsame := rowsFor_after_take d u n.toNat hWf
  refine ⟨?_, ?_, ?_⟩
  · rw [hst]
    simp [hsame, dbQueue]
  · rw [hst]
    simp [dbQueue, hsame]
  · rw [hst]
    exact wf_deleteFetched d _ hWf

theorem db_delete_messages_neg (d : DbState) (u : String) (n : Int)
    (hn : n < 0) (hWf : WfDb d) :
    (db_delete_messages d u n).1
      = (dbQueue d u).length -
          ((dbQueue d u).take ((dbQueue d u).length - n.natAbs)).length ∧
    dbQueue (db_delete_messages d u n).2 u
      = (dbQueue d u).take ((dbQueue d u).length - n.natAbs) ∧
    WfDb (db_delete_messages d u n).2 := by
  have hnn : ¬ (0 ≤ n) := by omega
  have hst : db_delete_messages d u n
      = ((rowsFor d u).length -
          (rowsFor (dbAfterDelete d ((rowsFor d u).reverse.take n.natAbs)) u).length,
         dbAfterDelete d ((rowsFor d u).reverse.take n.natAbs)) := by
    simp [db_delete_messages, dbAfterDelete, hnn]
  have hsame := rowsFor_after_revtake d u n.natAbs hWf
  refine ⟨?_, ?_, ?_⟩
  · rw [hst]
    simp [hsame, dbQueue]
  · rw [hst]
    simp [dbQueue, hsame]
  · rw [hst]
    exact wf_deleteFetched d _ hWf

theorem mem_delete_messages_nonneg (m : MemState) (u : String) (n : Int)
    (hn : 0 ≤ n) :
    mem_delete_messages m u n
      = (((alookup u m.messages).getD []).length -
          (((alookup u m.messages).getD []).drop n.toNat).length,
         memSetQueue m u (((alookup u m.messages).getD []).drop n.toNat)) := by
  simp only [mem_delete_messages, delete_messages, memSetQueue, if_pos hn,
    sliceFrom_nonneg _ n hn]

theorem mem_delete_messages_neg (m : MemState) (u : String) (n : Int)
    (hn : n < 0) :
    mem_delete_messages m u n
      = (((alookup u m.messages).getD []).length -
          (((alookup u m.messages).getD []).take
            (((alookup u m.messages).getD []).length - n.natAbs)).length,
         memSetQueue m u (((alookup u m.messages).getD []).take
           (((alookup u m.messages).getD []).length - n.natAbs))) := by
  have hnn : ¬ (0 ≤ n) := by omega
  simp only [mem_delete_messages, delete_messages, memSetQueue, if_neg hnn,
    sliceTo_neg _ n hn]

theorem aset_of_alookup_none (k : String) (v : β) (m : List (String × β))
    (h : alookup k m = none) : aset k v m = m ++ [(k, v)] := by
  induction m with
  | nil => simp [aset]
  | cons hd tl ih =>
      obtain ⟨k2, v2⟩ := hd
      by_cases h2 : k2 = k
      · rw [alookup, if_pos h2] at h
        cases h
      · rw [alookup, if_neg h2] at h
        simp [aset, h2, ih h]

/-- C4 amended: the two Store backends agree observably on account
existence, account creation, directory listing, enqueueing for a recipient
whose queue exists, draining with a nonzero signed count, deleting with any
signed count, and account deletion with its queue cascade — but
`add_message` for an unknown recipient is a no-op only on the in-memory
backend (see the counterexample), so the unconditional equivalence fails
there (and at drain count 0). -/
theorem backend_equivalence (m : MemState) (d : DbState) (u : String)
    (hWf : WfDb d) (husers : m.users = d.users) :
    account_exist m u = db_account_exist d u ∧
    (∀ p, (create_account m u p).1 = (db_create_account d u p).1 ∧
       (create_account m u p).2.users = (db_create_account d u p).2.users) ∧
    (∀ pat page size, list_accounts (m.users.map Prod.fst) pat page size
        = list_accounts (d.users.map Prod.fst) pat page size) ∧
    (∀ q mf mm, alookup u m.messages = some q → q = dbQueue d u →
       alookup u (add_message m u [("from", mf), ("message", mm)]).messages
         = some (q ++ [[("from", mf), ("message", mm)]]) ∧
       dbQueue (db_add_message d u [("from", mf), ("message", mm)]) u
         = q ++ [[("from", mf), ("message", mm)]] ∧
       WfDb (db_add_message d u [("from", mf), ("message", mm)]) ∧
       (∀ v, v ≠ u →
          alookup v (add_message m u [("from", mf), ("message", mm)]).messages
            = alookup v m.messages ∧
          dbQueue (db_add_message d u [("from", mf), ("message", mm)]) v
            = dbQueue d v)) ∧
    (∀ n : Int, n ≠ 0 → (alookup u m.messages).getD [] = dbQueue d u →
       (mem_get_and_clear m u n).1 = (db_get_and_clear d u n).1 ∧
       (alookup u (mem_get_and_clear m u n).2.messages).getD []
         = dbQueue (db_get_and_clear d u n).2 u ∧
       WfDb (db_get_and_clear d u n).2) ∧
    (∀ n : Int, (alookup u m.messages).getD [] = dbQueue d u →
       (mem_delete_messages m u n).1 = (db_delete_messages d u n).1 ∧
       (alookup u (mem_delete_messages m u n).2.messages).getD []
         = dbQueue (db_delete_messages d u n).2 u ∧
       WfDb (db_delete_messages d u n).2) ∧
    ((delete_account m u).users = (db_delete_account d u).users ∧
     (alookup u (delete_account m u).messages).getD [] = [] ∧
     dbQueue (db_delete_account d u) u = [] ∧
     WfDb (db_delete_account d u)) := by
  refine ⟨?_, ?_, ?_, ?_, ?_, ?_, ?_⟩
  · simp [account_exist, db_account_exist, husers]
  · intro p
    by_cases hex : (alookup u d.users).isSome
    · have h1 : account_exist m u = true := by simp [account_exist, husers, hex]
      have h2 : db_account_exist d u = true := by simp [db_account_exist, hex]
      constructor
      · simp [create_account, db_create_account, h1, h2]
      · simp [create_account, db_create_account, h1, h2, husers]
    · have h1 : account_exist m u = false := by
        simp [account_exist, husers]
        simpa using hex
      have h2 : db_account_exist d u = false := by
        simp [db_account_exist]
        simpa using hex
      have hnone : alookup u m.users = none := by
        rw [husers]
        simpa [Option.isNone_iff_eq_none] using hex
      rw [husers] at hnone
      constructor
      · simp [create_account, db_create_account, h1, h2]
      · simp [create_account, db_create_account, h1, h2, husers,
          aset_of_alookup_none u (hash_password p) d.users hnone]
  · intro pat page size
    rw [husers]
  · intro q mf mm hkey hq
    have hmem : alookup u (add_message m u [("from", mf), ("message", mm)]).messages
        = some (q ++ [[("from", mf), ("message", mm)]]) := by
      simp [add_message, hkey, alookup_aset_self]
    have hrowsFor : rowsFor (db_add_message d u [("from", mf), ("message", mm)]) u
        = rowsFor d u ++ [⟨d.nextId, u, mf, mm⟩] := by
      simp [db_add_message, rowsFor, List.filter_append, mget, alookup]
    have hq2 : (rowsFor d u).map rowToDict = q := by
      simpa [dbQueue] using hq.symm
    refine ⟨hmem, ?_, ?_, ?_⟩
    · rw [dbQueue, hrowsFor]
      simp [rowToDict, hq2]
    · constructor
      · simp only [db_add_message]
        rw [List.pairwise_append]
        refine ⟨hWf.1, by simp, ?_⟩
        intro a ha b hb
        simp only [List.mem_singleton] at hb
        subst hb
        exact hWf.2 a ha
      · intro r hr
        simp only [db_add_message, List.mem_append, List.mem_singleton] at hr
        rcases hr with hr | hr
        · have := hWf.2 r hr
          simp only [db_add_message]
          omega
        · subst hr
          simp [db_add_message]
    · intro v hv
      constructor
      · simp only [add_message, hkey]
        exact alookup_aset_ne u v _ m.messages hv
      · rw [dbQueue, dbQueue]
        have : rowsFor (db_add_message d u [("from", mf), ("message", mm)]) v
            = rowsFor d v := by
          simp [db_add_message, rowsFor, List.filter_append, Ne.symm hv]
        rw [this]
  · intro n hn hq
    rcases lt_or_gt_of_ne hn with hneg | hpos
    · have hmem := mem_get_and_clear_neg m u n hneg
      have hdb := db_get_and_clear_neg d u n hneg hWf
      rw [← hq] at hdb
      refine ⟨?_, ?_, hdb.2.2.2⟩
      · rw [hmem, hdb.1]
      · rw [hmem, hdb.2.1]
        simp [memSetQueue, alookup_aset_self]
    · have hmem := mem_get_and_clear_pos m u n hpos
      have hdb := db_get_and_clear_pos d u n (le_of_lt hpos) hWf
      have habs : n.natAbs = n.toNat := by omega
      rw [← hq] at hdb
      rw [habs] at hmem
      refine ⟨?_, ?_, hdb.2.2.2⟩
      · rw [hmem, hdb.1]
      · rw [hmem, hdb.2.1]
        simp [memSetQueue, alookup_aset_self]
  · intro n hq
    rcases le_or_lt 0 n with hpos | hneg
    · have hmem := mem_delete_messages_nonneg m u n hpos
      have hdb := db_delete_messages_nonneg d u n hpos hWf
      rw [← hq] at hdb
      refine ⟨?_, ?_, hdb.2.2⟩
      · rw [hmem, hdb.1]
      · rw [hmem, hdb.2.1]
        simp [memSetQueue, alookup_aset_self]
    · have hmem := mem_delete_messages_neg m u n hneg
      have hdb := db_delete_messages_neg d u n hneg hWf
      rw [← hq] at hdb
      refine ⟨?_, ?_, hdb.2.2⟩
      · rw [hmem, hdb.1]
      · rw [hmem, hdb.2.1]
        simp [memSetQueue, alookup_aset_self]
  · refine ⟨?_, ?_, ?_, ?_⟩
    · simp [delete_account, db_delete_account, husers]
    · simp [delete_account, alookup_aerase_self]
    · rw [dbQueue]
      have hempty : rowsFor (db_delete_account d u) u = [] := by
        simp only [db_delete_account, rowsFor]
        rw [List.filter_filter]
        simp
      rw [hempty]
      rfl
    · constructor
      · exact hWf.1.sublist (List.filter_sublist d.rows)
      · intro r hr
        exact hWf.2 r (List.mem_filter.mp hr).1

/-- Witness for the amended C4: a one-user, one-message pair of backend
states on which drain and delete agree observably. -/
theorem backend_equivalence_witness :
    (mem_get_and_clear
        ⟨[("bob", "#b")],
         [("bob", [[("from", some "alice"), ("message", some "hi")]])], [], []⟩
        "bob" (-1)).1
      = (db_get_and_clear
          ⟨[("bob", "#b")], [⟨0, "bob", some "alice", some "hi"⟩], 1⟩
          "bob" (-1)).1 ∧
    (mem_delete_messages
        ⟨[("bob", "#b")],
         [("bob", [[("from", some "alice"), ("message", some "hi")]])], [], []⟩
        "bob" 1).1
      = (db_delete_messages
          ⟨[("bob", "#b")], [⟨0, "bob", some "alice", some "hi"⟩], 1⟩
          "bob" 1).1 := by
  have hWf : WfDb ⟨[("bob", "#b")], [⟨0, "bob", some "alice", some "hi"⟩], 1⟩ := by
    constructor
    · simp
    · intro r hr
      simp only [List.mem_singleton] at hr
      subst hr
      simp
  have h := backend_equivalence
    ⟨[("bob", "#b")],
     [("bob", [[("from", some "alice"), ("message", some "hi")]])], [], []⟩
    ⟨[("bob", "#b")], [⟨0, "bob", some "alice", some "hi"⟩], 1⟩
    "bob" hWf rfl
  exact ⟨(h.2.2.2.2.1 (-1) (by decide) rfl).1, (h.2.2.2.2.2.1 1 rfl).1⟩

/-- C2 counterexample, both codecs: the compact codec collapses every
truthy status other than "success" to the tag `10`, which decodes as
"error", so the record with status "ok" does not round-trip; and the JSON
codec's decoder counts braces inside string literals, so the record whose
error string is a single opening brace is framed wrongly and decodes to no
record at all. -/
theorem codec_round_trip_counterexample :
    (cp_decode (cp_encode ⟨none, some "ok".toList, none, none⟩)
      = [⟨none, some "error".toList, none, none⟩] ∧
    ¬ ([(⟨none, some "error".toList, none, none⟩ : Rec)]
        = [⟨none, some "ok".toList, none, none⟩])) ∧
    (json_decode (json_encode ⟨none, none, some ['\x7b'], none⟩)
      = ([] : List Json) ∧
    ¬ (([] : List Json)
        = [recToJson ⟨none, none, some ['\x7b'], none⟩])) := by
  refine ⟨⟨?_, ?_⟩, ?_, ?_⟩
  · decide
  · decide
  · decide
  · decide

theorem digitChar_toNat (d : Nat) (h : d < 10) : (digitChar d).toNat = 48 + d := by
  interval_cases d <;> decide

theorem isDigit_digitChar (d : Nat) (h : d < 10) :
    isDigitCh (digitChar d) = true := by
  interval_cases d <;> decide

theorem digitChar_ne_zero (d : Nat) (h1 : 1 ≤ d) (h2 : d < 10) :
    digitChar d ≠ '0' := by
  interval_cases d <;> decide

theorem natToDigitsAux_all (f n : Nat) (h : n < f) :
    (natToDigitsAux f n).all isDigitCh = true ∧ natToDigitsAux f n ≠ [] := by
  induction f generalizing n with
  | zero => omega
  | succ f ih =>
      by_cases h10 : n < 10
      · simp [natToDigitsAux, h10, isDigit_digitChar n h10]
      · have hrec := ih (n / 10) (by omega)
        simp only [natToDigitsAux, if_neg h10]
        constructor
        · simp only [List.all_append, hrec.1, Bool.true_and]
          simp [isDigit_digitChar (n % 10) (by omega)]
        · simp

theorem natToDigits_all (n : Nat) :
    (natToDigits n).all isDigitCh = true ∧ natToDigits n ≠ [] :=
  natToDigitsAux_all (n + 1) n (by omega)

theorem parseDigitsAux_spec (ds : List Char) :
    ∀ (acc : Nat) (rest : List Char), ds.all isDigitCh = true →
      HeadNotDigit rest →
      parseDigitsAux acc (ds ++ rest) = (digitsVal acc ds, rest) := by
  induction ds with
  | nil =>
      intro acc rest _ hrest
      cases rest with
      | nil => simp [parseDigitsAux, digitsVal]
      | cons c t =>
          simp only [HeadNotDigit] at hrest
          simp [parseDigitsAux, hrest, digitsVal]
  | cons d ds ih =>
      intro acc rest hall hrest
      simp only [List.all_cons, Bool.and_eq_true] at hall
      simp only [List.cons_append, parseDigitsAux, hall.1, if_pos,
        List.append_eq]
      rw [ih _ rest hall.2 hrest]
      simp [digitsVal]

theorem digitsVal_natToDigitsAux (f : Nat) :
    ∀ (n acc : Nat), n < f →
      digitsVal acc (natToDigitsAux f n)
        = acc * 10 ^ (natToDigitsAux f n).length + n := by
  induction f with
  | zero => omega
  | succ f ih =>
      intro n acc h
      by_cases h10 : n < 10
      · simp [natToDigitsAux, h10, digitsVal, digitChar_toNat n h10]
      · have hdiv : n / 10 < f := by omega
        simp only [natToDigitsAux, if_neg h10]
        have hfold : digitsVal acc (natToDigitsAux f (n / 10) ++ [digitChar (n % 10)])
            = digitsVal acc (natToDigitsAux f (n / 10)) * 10
                + ((digitChar (n % 10)).toNat - 48) := by
          simp [digitsVal]
        rw [hfold, ih (n / 10) acc hdiv, digitChar_toNat (n % 10) (by omega)]
        have hlen : (natToDigitsAux f (n / 10) ++ [digitChar (n % 10)]).length
            = (natToDigitsAux f (n / 10)).length + 1 := by simp
        rw [hlen, pow_succ]
        have : (48 : Nat) + n % 10 - 48 = n % 10 := by omega
        rw [this]
        ring_nf
        omega

theorem digits_roundtrip (n : Nat) (rest : List Char) (hrest : HeadNotDigit rest) :
    parseDigitsAux 0 (natToDigits n ++ rest) = (n, rest) := by
  rw [parseDigitsAux_spec _ 0 rest (natToDigits_all n).1 hrest]
  rw [natToDigits, digitsVal_natToDigitsAux (n + 1) n 0 (by omega)]
  simp

theorem parsePyInt_natToDigits (n : Nat) :
    parsePyInt (natToDigits n) = some n := by
  have h1 := (natToDigits_all n).1
  have h2 := (natToDigits_all n).2
  have h3 : natToDigits n ++ ([] : List Char) = natToDigits n := by simp
  have h4 := digits_roundtrip n [] trivial
  rw [h3] at h4
  simp only [parsePyInt, List.isEmpty_iff, h1, if_true]
  rw [if_neg (by simpa using h2), h4]

theorem natToDigitsAux_head_ne_zero (f : Nat) :
    ∀ (n : Nat) (c : Char) (cs : List Char), n < f → 1 ≤ n →
      natToDigitsAux f n = c :: cs → c ≠ '0' := by
  induction f with
  | zero => omega
  | succ f ih =>
      intro n c cs h h1 heq
      by_cases h10 : n < 10
      · simp only [natToDigitsAux, if_pos h10] at heq
        cases heq
        exact digitChar_ne_zero n h1 h10
      · simp only [natToDigitsAux, if_neg h10] at heq
        have hne := (natToDigitsAux_all f (n / 10) (by omega)).2
        cases hrec : natToDigitsAux f (n / 10) with
        | nil => exact absurd hrec hne
        | cons c2 cs2 =>
            rw [hrec] at heq
            simp only [List.cons_append, List.cons.injEq] at heq
            rw [← heq.1]
            exact ih (n / 10) c2 cs2 (by omega) (by omega) hrec

theorem natToDigits_head_ne_zero (n : Nat) (c : Char) (cs : List Char)
    (h1 : 1 ≤ n) (heq : natToDigits n = c :: cs) : c ≠ '0' :=
  natToDigitsAux_head_ne_zero (n + 1) n c cs (by omega) h1 heq

theorem skipWs_cons_of (c : Char) (t : List Char) (h : (c == ' ') = false) :
    skipWs (c :: t) = c :: t := by
  simp [skipWs, List.dropWhile_cons, h]

theorem skipWs_cons_space (t : List Char) : skipWs (' ' :: t) = skipWs t := by
  simp [skipWs, List.dropWhile_cons]

theorem parseJ_ws (fuel : Nat) (s : List Char) :
    parseJ fuel (' ' :: s) = parseJ fuel s := by
  cases fuel with
  | zero => rfl
  | succ f =>
      simp only [parseJ]
      rw [skipWs_cons_space]

theorem parseItems_ws (fuel : Nat) (s : List Char) :
    parseItems fuel (' ' :: s) = parseItems fuel s := by
  cases fuel with
  | zero => rfl
  | succ f =>
      simp only [parseItems]
      rw [parseJ_ws]

theorem parseKVs_ws (fuel : Nat) (s : List Char) :
    parseKVs fuel (' ' :: s) = parseKVs fuel s := by
  cases fuel with
  | zero => rfl
  | succ f =>
      simp only [parseKVs]
      rw [skipWs_cons_space]

theorem parseStrBody_safe (s : List Char) :
    ∀ rest, s.all safeChar = true →
      parseStrBody (s ++ '"' :: rest) = some (s, rest) := by
  induction s with
  | nil =>
      intro rest _
      simp [parseStrBody]
  | cons c t ih =>
      intro rest hall
      simp only [List.all_cons, Bool.and_eq_true] at hall
      have hc : (c == '"') = false := by
        have := hall.1
        simp only [safeChar, Bool.and_eq_true, Bool.not_eq_true'] at this
        exact this.1.1.1
      simp only [List.cons_append, parseStrBody, hc, Bool.false_eq_true,
        if_false, List.append_eq]
      rw [ih rest hall.2]
      rfl

/-- The head character of a dump is never one the surrounding grammar
treats specially. -/
theorem dumps_head_ex (v : Json) :
    ∃ c cs, jsonDumps v = c :: cs ∧ (c == ' ') = false ∧
      c ≠ ']' ∧ c ≠ '\x7d' ∧ c ≠ ',' := by
  cases v with
  | null => refine ⟨'n', _, rfl, ?_, ?_, ?_, ?_⟩ <;> decide
  | bool b =>
      cases b with
      | true => refine ⟨'t', _, rfl, ?_, ?_, ?_, ?_⟩ <;> decide
      | false => refine ⟨'f', _, rfl, ?_, ?_, ?_, ?_⟩ <;> decide
  | str s => refine ⟨'"', _, rfl, ?_, ?_, ?_, ?_⟩ <;> decide
  | arr xs => refine ⟨'[', _, rfl, ?_, ?_, ?_, ?_⟩ <;> decide
  | obj kvs => refine ⟨'\x7b', _, rfl, ?_, ?_, ?_, ?_⟩ <;> decide
  | num n =>
      show ∃ c cs, intToChars n = c :: cs ∧ _
      by_cases hn : n < 0
      · refine ⟨'-', natToDigits n.natAbs, by simp [intToChars, hn],
          ?_, ?_, ?_, ?_⟩ <;> decide
      · simp only [intToChars, if_neg hn]
        cases hd : natToDigits n.toNat with
        | nil => exact absurd hd (natToDigits_all n.toNat).2
        | cons c cs =>
            have hdig : isDigitCh c = true := by
              have hall := (natToDigits_all n.toNat).1
              rw [hd] at hall
              simp only [List.all_cons, Bool.and_eq_true] at hall
              exact hall.1
            refine ⟨c, cs, rfl, ?_, ?_, ?_, ?_⟩
            · by_contra hc
              simp only [Bool.not_eq_false, beq_iff_eq] at hc
              subst hc
              exact absurd hdig (by decide)
            · intro hc
              subst hc
              exact absurd hdig (by decide)
            · intro hc
              subst hc
              exact absurd hdig (by decide)
            · intro hc
              subst hc
              exact absurd hdig (by decide)

theorem digit_not_special (c : Char) (h : isDigitCh c = true) :
    ¬ c = 'n' ∧ ¬ c = 't' ∧ ¬ c = 'f' ∧ ¬ c = '"' ∧ ¬ c = '[' ∧
      ¬ c = '\x7b' ∧ ¬ c = '-' ∧ (c == ' ') = false := by
  refine ⟨?_, ?_, ?_, ?_, ?_, ?_, ?_, ?_⟩ <;>
    first
    | (intro hc; subst hc; exact absurd h (by decide))
    | (by_contra hc
       simp only [Bool.not_eq_false, beq_iff_eq] at hc
       subst hc
       exact absurd h (by decide))

theorem headNotDigit_cons (c : Char) (t : List Char)
    (h : isDigitCh c = false) : HeadNotDigit (c :: t) := h

theorem jsize_pos (v : Json) : 1 ≤ jsize v := by
  cases v <;> simp [jsize]

theorem jsizeL_pos (xs : JsonList) : 1 ≤ jsizeL xs := by
  cases xs <;> simp only [jsizeL] <;> omega

theorem jsizeK_pos (kvs : JsonKVs) : 1 ≤ jsizeK kvs := by
  cases kvs <;> simp only [jsizeK] <;> omega

theorem dumpsList_cons_eq (x : Json) (xs : JsonList) (t : List Char) :
    ∃ u, dumpsList (.cons x xs) ++ t = jsonDumps x ++ u := by
  cases xs with
  | nil => exact ⟨t, rfl⟩
  | cons y ys =>
      exact ⟨[',', ' '] ++ dumpsList (.cons y ys) ++ t, by simp [dumpsList]⟩

theorem dumpsKVs_cons_eq (k : List Char) (v : Json) (kvs : JsonKVs)
    (t : List Char) :
    ∃ u, dumpsKVs (.cons k v kvs) ++ t = '"' :: u := by
  cases kvs with
  | nil => exact ⟨k ++ ['"', ':', ' '] ++ jsonDumps v ++ t, by simp [dumpsKVs]⟩
  | cons k2 v2 kvs2 =>
      exact ⟨k ++ ['"', ':', ' '] ++ jsonDumps v ++ [',', ' ']
        ++ dumpsKVs (.cons k2 v2 kvs2) ++ t, by simp [dumpsKVs]⟩

theorem dumps_append_head (v : Json) (t : List Char) :
    skipWs (jsonDumps v ++ t) = jsonDumps v ++ t ∧
    ¬ (jsonDumps v ++ t).head? = some ']' ∧
    ¬ (jsonDumps v ++ t).head? = some '\x7d' := by
  obtain ⟨c, cs, hcons, hsp, hrb, hrc, _⟩ := dumps_head_ex v
  rw [hcons]
  refine ⟨skipWs_cons_of c _ hsp, ?_, ?_⟩
  · simp [hrb]
  · simp [hrc]

theorem parseJ_null (f : Nat) (t : List Char) :
    parseJ (f + 1) ('n' :: 'u' :: 'l' :: 'l' :: t) = some (.null, t) := rfl

theorem parseJ_true (f : Nat) (t : List Char) :
    parseJ (f + 1) ('t' :: 'r' :: 'u' :: 'e' :: t) = some (.bool true, t) := rfl

theorem parseJ_false (f : Nat) (t : List Char) :
    parseJ (f + 1) ('f' :: 'a' :: 'l' :: 's' :: 'e' :: t)
      = some (.bool false, t) := rfl

theorem parseJ_quote (f : Nat) (t : List Char) :
    parseJ (f + 1) ('"' :: t)
      = (parseStrBody t).map (fun p => (.str p.1, p.2)) := rfl

theorem parseJ_lbrack (f : Nat) (t : List Char) :
    parseJ (f + 1) ('[' :: t)
      = (if (skipWs t).head? = some ']' then some (.arr .nil, (skipWs t).tail)
         else
           match parseItems f (skipWs t) with
           | some (xs, r3) => some (.arr xs, r3)
           | none => none) := rfl

theorem parseJ_lbrace (f : Nat) (t : List Char) :
    parseJ (f + 1) ('\x7b' :: t)
      = (if (skipWs t).head? = some '\x7d' then
           some (.obj .nil, (skipWs t).tail)
         else
           match parseKVs f (skipWs t) with
           | some (kvs, r3) => some (.obj kvs, r3)
           | none => none) := rfl

theorem parseJ_minus (f : Nat) (t : List Char) :
    parseJ (f + 1) ('-' :: t)
      = (match t with
         | c2 :: _ =>
             if isDigitCh c2 then
               some (.num (-((parseDigitsAux 0 t).1 : Int)),
                 (parseDigitsAux 0 t).2)
             else none
         | [] => none) := rfl

theorem parseJ_digit (f : Nat) (c : Char) (t : List Char)
    (h : isDigitCh c = true) :
    parseJ (f + 1) (c :: t)
      = some (.num ((parseDigitsAux 0 (c :: t)).1 : Int),
          (parseDigitsAux 0 (c :: t)).2) := by
  obtain ⟨h1, h2, h3, h4, h5, h6, h7, h8⟩ := digit_not_special c h
  simp only [parseJ]
  rw [skipWs_cons_of c t h8]
  dsimp only
  rw [if_neg h1, if_neg h2, if_neg h3, if_neg h4, if_neg h5, if_neg h6,
    if_neg h7, if_pos h]

mutual
theorem parseJ_dumps (v : Json) :
    ∀ fuel rest, jsize v ≤ fuel → safeJ v = true → HeadNotDigit rest →
      parseJ fuel (jsonDumps v ++ rest) = some (v, rest) := by
  intro fuel rest hsz hsafe hrest
  cases fuel with
  | zero => exact absurd hsz (by have := jsize_pos v; omega)
  | succ f =>
      cases v with
      | null => exact parseJ_null f rest
      | bool b => cases b <;> [exact parseJ_false f rest; exact parseJ_true f rest]
      | str s =>
          have hs : s.all safeChar = true := hsafe
          have hinput : jsonDumps (.str s) ++ rest = '"' :: (s ++ '"' :: rest) := by
            simp [jsonDumps]
          rw [hinput, parseJ_quote, parseStrBody_safe s rest hs]
          rfl
      | num n =>
          by_cases hn : n < 0
          · have hd := natToDigits_all n.natAbs
            obtain ⟨c, cs, hcons⟩ : ∃ c cs, natToDigits n.natAbs = c :: cs := by
              cases h : natToDigits n.natAbs with
              | nil => exact absurd h hd.2
              | cons a b => exact ⟨a, b, rfl⟩
            have hdig : isDigitCh c = true := by
              have hall := hd.1
              rw [hcons] at hall
              simp only [List.all_cons, Bool.and_eq_true] at hall
              exact hall.1
            have hinput : jsonDumps (.num n) ++ rest
                = '-' :: (natToDigits n.natAbs ++ rest) := by
              simp [jsonDumps, intToChars, hn]
            rw [hinput, parseJ_minus]
            rw [hcons, List.cons_append]
            dsimp only
            rw [if_pos hdig]
            rw [← List.cons_append, ← hcons,
              digits_roundtrip n.natAbs rest hrest]
            have hval : -((n.natAbs : Nat) : Int) = n := by omega
            rw [hval]
          · have hd := natToDigits_all n.toNat
            obtain ⟨c, cs, hcons⟩ : ∃ c cs, natToDigits n.toNat = c :: cs := by
              cases h : natToDigits n.toNat with
              | nil => exact absurd h hd.2
              | cons a b => exact ⟨a, b, rfl⟩
            have hdig : isDigitCh c = true := by
              have hall := hd.1
              rw [hcons] at hall
              simp only [List.all_cons, Bool.and_eq_true] at hall
              exact hall.1
            have hinput : jsonDumps (.num n) ++ rest
                = c :: (cs ++ rest) := by
              simp [jsonDumps, intToChars, hn, hcons]
            rw [hinput, parseJ_digit f c _ hdig]
            rw [← List.cons_append, ← hcons,
              digits_roundtrip n.toNat rest hrest]
            have hval : ((n.toNat : Nat) : Int) = n := by omega
            rw [hval]
      | arr xs =>
          cases xs with
          | nil =>
              have hinput : jsonDumps (.arr .nil) ++ rest = '[' :: ']' :: rest := by
                simp [jsonDumps, dumpsList]
              rw [hinput, parseJ_lbrack]
              rw [skipWs_cons_of ']' rest (by decide)]
              simp
          | cons x xs2 =>
              have hb1 : jsizeL (.cons x xs2) ≤ f := by
                simp only [jsize] at hsz
                omega
              have hs1 : safeL (.cons x xs2) = true := hsafe
              have hinput : jsonDumps (.arr (.cons x xs2)) ++ rest
                  = '[' :: (dumpsList (.cons x xs2) ++ ']' :: rest) := by
                simp [jsonDumps]
              obtain ⟨u, hu⟩ := dumpsList_cons_eq x xs2 (']' :: rest)
              obtain ⟨hskip, hrb, _⟩ := dumps_append_head x u
              rw [hinput, parseJ_lbrack, hu, hskip, if_neg hrb, ← hu]
              rw [parseItems_dumps x xs2 f rest hb1 hs1]
      | obj kvs =>
          cases kvs with
          | nil =>
              have hinput : jsonDumps (.obj .nil) ++ rest
                  = '\x7b' :: '\x7d' :: rest := by
                simp [jsonDumps, dumpsKVs]
              rw [hinput, parseJ_lbrace]
              rw [skipWs_cons_of '\x7d' rest (by decide)]
              simp
          | cons k x kvs2 =>
              have hb1 : jsizeK (.cons k x kvs2) ≤ f := by
                simp only [jsize] at hsz
                omega
              have hs1 : safeK (.cons k x kvs2) = true := hsafe
              have hinput : jsonDumps (.obj (.cons k x kvs2)) ++ rest
                  = '\x7b' :: (dumpsKVs (.cons k x kvs2) ++ '\x7d' :: rest) := by
                simp [jsonDumps]
              obtain ⟨u, hu⟩ := dumpsKVs_cons_eq k x kvs2 ('\x7d' :: rest)
              rw [hinput, parseJ_lbrace, hu,
                skipWs_cons_of '"' _ (by decide),
                if_neg (by simp : ¬ (('"' :: u).head? = some '\x7d')), ← hu]
              rw [parseKVs_dumps k x kvs2 f rest hb1 hs1]
termination_by sizeOf v
theorem parseItems_dumps (x : Json) (xs : JsonList) :
    ∀ fuel rest, jsizeL (JsonList.cons x xs) ≤ fuel →
      safeL (JsonList.cons x xs) = true →
      parseItems fuel (dumpsList (JsonList.cons x xs) ++ ']' :: rest)
        = some (JsonList.cons x xs, rest) := by
  intro fuel rest hsz hsafe
  have hsafes : safeJ x = true ∧ safeL xs = true := by
    simpa [safeL, Bool.and_eq_true] using hsafe
  cases fuel with
  | zero => exact absurd hsz (by simp [jsizeL])
  | succ g =>
      cases xs with
      | nil =>
          have hd : dumpsList (JsonList.cons x .nil) = jsonDumps x := rfl
          simp only [parseItems, hd]
          rw [parseJ_dumps x g (']' :: rest) (by simp only [jsizeL] at hsz; omega)
            hsafes.1 (headNotDigit_cons ']' rest (by decide))]
          dsimp only
          rw [skipWs_cons_of ']' rest (by decide)]
          dsimp only
          rw [if_neg (by decide : ¬ (']' : Char) = ','), if_pos rfl]
      | cons y ys =>
          have harr : dumpsList (JsonList.cons x (JsonList.cons y ys)) ++ ']' :: rest
              = jsonDumps x
                  ++ (',' :: ' ' :: (dumpsList (JsonList.cons y ys) ++ ']' :: rest)) := by
            simp [dumpsList]
          simp only [parseItems]
          rw [harr, parseJ_dumps x g _ (by simp only [jsizeL] at hsz ⊢; omega)
            hsafes.1 (headNotDigit_cons ',' _ (by decide))]
          dsimp only
          rw [skipWs_cons_of ',' _ (by decide)]
          dsimp only
          rw [if_pos rfl, parseItems_ws,
            parseItems_dumps y ys g rest (by simp only [jsizeL] at hsz ⊢; omega)
              hsafes.2]
termination_by sizeOf (JsonList.cons x xs)
theorem parseKVs_dumps (k : List Char) (v : Json) (kvs : JsonKVs) :
    ∀ fuel rest, jsizeK (JsonKVs.cons k v kvs) ≤ fuel →
      safeK (JsonKVs.cons k v kvs) = true →
      parseKVs fuel (dumpsKVs (JsonKVs.cons k v kvs) ++ '\x7d' :: rest)
        = some (JsonKVs.cons k v kvs, rest) := by
  intro fuel rest hsz hsafe
  have hsafes : k.all safeChar = true ∧ safeJ v = true ∧ safeK kvs = true := by
    simpa [safeK, Bool.and_eq_true, and_assoc] using hsafe
  cases fuel with
  | zero => exact absurd hsz (by simp [jsizeK])
  | succ g =>
      cases kvs with
      | nil =>
          have hinput : dumpsKVs (JsonKVs.cons k v .nil) ++ '\x7d' :: rest
              = '"' :: (k ++ '"' :: ':' :: ' '
                  :: (jsonDumps v ++ '\x7d' :: rest)) := by
            simp [dumpsKVs]
          simp only [parseKVs]
          rw [hinput, skipWs_cons_of '"' _ (by decide)]
          dsimp only
          rw [if_pos rfl, parseStrBody_safe k _ hsafes.1]
          dsimp only
          rw [skipWs_cons_of ':' _ (by decide)]
          dsimp only
          rw [if_pos rfl, parseJ_ws,
            parseJ_dumps v g _ (by simp only [jsizeK] at hsz; omega)
              hsafes.2.1 (headNotDigit_cons '\x7d' _ (by decide))]
          dsimp only
          rw [skipWs_cons_of '\x7d' _ (by decide)]
          dsimp only
          rw [if_neg (by decide : ¬ ('\x7d' : Char) = ','), if_pos rfl]
      | cons k2 v2 kvs2 =>
          have hinput : dumpsKVs (JsonKVs.cons k v (JsonKVs.cons k2 v2 kvs2))
                ++ '\x7d' :: rest
              = '"' :: (k ++ '"' :: ':' :: ' '
                  :: (jsonDumps v ++ ',' :: ' '
                    :: (dumpsKVs (JsonKVs.cons k2 v2 kvs2) ++ '\x7d' :: rest))) := by
            simp [dumpsKVs]
          simp only [parseKVs]
          rw [hinput, skipWs_cons_of '"' _ (by decide)]
          dsimp only
          rw [if_pos rfl, parseStrBody_safe k _ hsafes.1]
          dsimp only
          rw [skipWs_cons_of ':' _ (by decide)]
          dsimp only
          rw [if_pos rfl, parseJ_ws,
            parseJ_dumps v g _ (by simp only [jsizeK] at hsz; omega)
              hsafes.2.1 (headNotDigit_cons ',' _ (by decide))]
          dsimp only
          rw [skipWs_cons_of ',' _ (by decide)]
          dsimp only
          rw [if_pos rfl, parseKVs_ws,
            parseKVs_dumps k2 v2 kvs2 g rest
              (by simp only [jsizeK] at hsz ⊢; omega) hsafes.2.2]
termination_by sizeOf (JsonKVs.cons k v kvs)
end

theorem intToChars_len_pos (n : Int) : 1 ≤ (intToChars n).length := by
  unfold intToChars
  by_cases hn : n < 0
  · simp [hn]
  · rw [if_neg hn]
    have := (natToDigits_all n.toNat).2
    cases h : natToDigits n.toNat with
    | nil => exact absurd h this
    | cons a b => simp [h]

mutual
theorem jsize_dumps (v : Json) : jsize v + 1 ≤ 2 * (jsonDumps v).length := by
  cases v with
  | null => simp [jsize, jsonDumps]
  | bool b => cases b <;> simp [jsize, jsonDumps]
  | num n =>
      have := intToChars_len_pos n
      simp only [jsize, jsonDumps]
      omega
  | str s => simp [jsize, jsonDumps]
  | arr xs =>
      have := jsizeL_dumps xs
      simp only [jsize, jsonDumps, List.length_cons, List.length_append]
      omega
  | obj kvs =>
      have := jsizeK_dumps kvs
      simp only [jsize, jsonDumps, List.length_cons, List.length_append]
      omega
theorem jsizeL_dumps (xs : JsonList) :
    jsizeL xs ≤ 2 * (dumpsList xs).length + 1 := by
  cases xs with
  | nil => simp [jsizeL, dumpsList]
  | cons x xs2 =>
      cases xs2 with
      | nil =>
          have := jsize_dumps x
          simp only [jsizeL, dumpsList]
          omega
      | cons y ys =>
          have h1 := jsize_dumps x
          have h2 := jsizeL_dumps (JsonList.cons y ys)
          simp only [jsizeL, dumpsList, List.length_append] at h2 ⊢
          omega
theorem jsizeK_dumps (kvs : JsonKVs) :
    jsizeK kvs ≤ 2 * (dumpsKVs kvs).length + 1 := by
  cases kvs with
  | nil => simp [jsizeK, dumpsKVs]
  | cons k v kvs2 =>
      cases kvs2 with
      | nil =>
          have := jsize_dumps v
          simp only [jsizeK, dumpsKVs, List.length_cons, List.length_append]
          omega
      | cons k2 v2 kvs3 =>
          have h1 := jsize_dumps v
          have h2 := jsizeK_dumps (JsonKVs.cons k2 v2 kvs3)
          simp only [jsizeK, dumpsKVs, List.length_cons, List.length_append]
            at h2 ⊢
          omega
end

/-- `json.loads ∘ json.dumps` is the identity on the safe fragment. -/
theorem jsonLoads_dumps (v : Json) (hsafe : safeJ v = true) :
    jsonLoads (jsonDumps v) = some v := by
  have hb := jsize_dumps v
  have hparse := parseJ_dumps v (2 * (jsonDumps v).length + 2) [] (by omega)
    hsafe trivial
  rw [List.append_nil] at hparse
  rw [jsonLoads, hparse]
  simp [skipWs]

theorem bal_nil : bal [] = 0 := rfl

theorem bal_cons (c : Char) (t : List Char) :
    bal (c :: t) = braceDelta c + bal t := by
  simp [bal]

theorem bal_append (xs ys : List Char) : bal (xs ++ ys) = bal xs + bal ys := by
  simp [bal]

theorem balanced_nil : Balanced [] := ⟨rfl, fun k => by simp [bal]⟩

theorem balanced_append (xs ys : List Char) (hx : Balanced xs)
    (hy : Balanced ys) : Balanced (xs ++ ys) := by
  refine ⟨by rw [bal_append, hx.1, hy.1]; omega, ?_⟩
  intro k
  rw [List.take_append_eq_append_take, bal_append]
  have := hx.2 k
  have := hy.2 (k - xs.length)
  omega

theorem bal_eq_zero_of_all (cs : List Char)
    (h : ∀ c ∈ cs, braceDelta c = 0) : bal cs = 0 := by
  induction cs with
  | nil => rfl
  | cons c t ih =>
      rw [bal_cons, h c (List.mem_cons_self c t),
        ih (fun y hy => h y (List.mem_cons_of_mem c hy))]
      omega

theorem balanced_of_all (cs : List Char)
    (h : ∀ c ∈ cs, braceDelta c = 0) : Balanced cs := by
  refine ⟨bal_eq_zero_of_all cs h, ?_⟩
  intro k
  rw [bal_eq_zero_of_all _ (fun c hc => h c ((cs.take_sublist k).mem hc))]

theorem braceDelta_digit (c : Char) (h : isDigitCh c = true) :
    braceDelta c = 0 := by
  unfold braceDelta
  rw [if_neg, if_neg]
  · intro hc
    subst hc
    exact absurd h (by decide)
  · intro hc
    subst hc
    exact absurd h (by decide)

theorem bal_take_close (m : Nat) :
    bal (List.take m ['\x7d']) = 0 ∨ bal (List.take m ['\x7d']) = -1 := by
  cases m with
  | zero =>
      left
      rfl
  | succ j =>
      right
      simp [bal, braceDelta]

theorem balanced_wrap (xs : List Char) (hx : Balanced xs) :
    Balanced ('\x7b' :: (xs ++ ['\x7d'])) := by
  have h1 : braceDelta '\x7b' = 1 := by decide
  have h2 : bal ['\x7d'] = -1 := by decide
  constructor
  · rw [bal_cons, bal_append, hx.1, h1, h2]
    omega
  · intro k
    cases k with
    | zero => simp [bal]
    | succ j =>
        rw [List.take_succ_cons, bal_cons,
          List.take_append_eq_append_take, bal_append, h1]
        have ha := hx.2 j
        rcases bal_take_close (j - xs.length) with hb | hb <;> omega

theorem braceDelta_safe (c : Char) (h : safeChar c = true) :
    braceDelta c = 0 := by
  simp only [safeChar, Bool.and_eq_true, Bool.not_eq_true'] at h
  unfold braceDelta
  rw [if_neg, if_neg]
  · simpa using h.2
  · simpa using h.1.2

mutual
theorem balancedJ_dumps (v : Json) (h : safeJ v = true) :
    Balanced (jsonDumps v) := by
  cases v with
  | null => exact balanced_of_all _ (by decide)
  | bool b => cases b <;> exact balanced_of_all _ (by decide)
  | num n =>
      apply balanced_of_all
      intro c hc
      unfold jsonDumps intToChars at hc
      by_cases hn : n < 0
      · rw [if_pos hn] at hc
        rcases List.mem_cons.mp hc with hc | hc
        · subst hc
          decide
        · exact braceDelta_digit c
            (List.all_eq_true.mp (natToDigits_all n.natAbs).1 c hc)
      · rw [if_neg hn] at hc
        exact braceDelta_digit c
          (List.all_eq_true.mp (natToDigits_all n.toNat).1 c hc)
  | str s =>
      apply balanced_of_all
      intro c hc
      unfold jsonDumps at hc
      rcases List.mem_cons.mp hc with hc | hc
      · subst hc
        decide
      · rcases List.mem_append.mp hc with hc | hc
        · exact braceDelta_safe c (List.all_eq_true.mp h c hc)
        · simp only [List.mem_singleton] at hc
          subst hc
          decide
  | arr xs =>
      have hin := balancedL_dumps xs h
      have h1 : jsonDumps (.arr xs) = ['['] ++ dumpsList xs ++ [']'] := by
        simp [jsonDumps]
      rw [h1]
      exact balanced_append _ _
        (balanced_append _ _ (balanced_of_all _ (by decide)) hin)
        (balanced_of_all _ (by decide))
  | obj kvs =>
      have hin := balancedK_dumps kvs h
      have h1 : jsonDumps (.obj kvs) = '\x7b' :: (dumpsKVs kvs ++ ['\x7d']) := by
        simp [jsonDumps]
      rw [h1]
      exact balanced_wrap _ hin
theorem balancedL_dumps (xs : JsonList) (h : safeL xs = true) :
    Balanced (dumpsList xs) := by
  cases xs with
  | nil => exact balanced_nil
  | cons x xs2 =>
      have hx : safeJ x = true ∧ safeL xs2 = true := by
        simpa [safeL, Bool.and_eq_true] using h
      cases xs2 with
      | nil => exact balancedJ_dumps x hx.1
      | cons y ys =>
          have h1 : dumpsList (.cons x (.cons y ys))
              = jsonDumps x ++ [',', ' '] ++ dumpsList (.cons y ys) := by
            simp [dumpsList]
          rw [h1]
          exact balanced_append _ _
            (balanced_append _ _ (balancedJ_dumps x hx.1)
              (balanced_of_all _ (by decide)))
            (balancedL_dumps (.cons y ys) hx.2)
theorem balancedK_dumps (kvs : JsonKVs) (h : safeK kvs = true) :
    Balanced (dumpsKVs kvs) := by
  cases kvs with
  | nil => exact balanced_nil
  | cons k v kvs2 =>
      have hx : k.all safeChar = true ∧ safeJ v = true ∧ safeK kvs2 = true := by
        simpa [safeK, Bool.and_eq_true, and_assoc] using h
      have hkv : Balanced ('"' :: k ++ ['"', ':', ' '] ++ jsonDumps v) := by
        have hk : Balanced ('"' :: k ++ ['"', ':', ' ']) := by
          apply balanced_of_all
          intro c hc
          have hc2 : c = '"' ∨ c ∈ k ∨ c = '"' ∨ c = ':' ∨ c = ' ' := by
            simpa using hc
          rcases hc2 with hc3 | hc3 | hc3 | hc3 | hc3
          · subst hc3
            decide
          · exact braceDelta_safe c (List.all_eq_true.mp hx.1 c hc3)
          · subst hc3
            decide
          · subst hc3
            decide
          · subst hc3
            decide
        have := balanced_append _ _ hk (balancedJ_dumps v hx.2.1)
        simpa using this
      cases kvs2 with
      | nil => exact hkv
      | cons k2 v2 kvs3 =>
          have h1 : dumpsKVs (.cons k v (.cons k2 v2 kvs3))
              = ('"' :: k ++ ['"', ':', ' '] ++ jsonDumps v) ++ [',', ' ']
                  ++ dumpsKVs (.cons k2 v2 kvs3) := by
            simp [dumpsKVs]
          rw [h1]
          exact balanced_append _ _
            (balanced_append _ _ hkv (balanced_of_all _ (by decide)))
            (balancedK_dumps (.cons k2 v2 kvs3) hx.2.2)
end

theorem splitAux_cons (c : Char) (r : List Char) (stack : Int)
    (cur : List Char) (acc : List Json) :
    splitDecodeAux (c :: r) stack cur acc
      = (if stack + braceDelta c = 0 then
           (match jsonLoads (pyStrip (cur ++ [c])) with
            | some m => splitDecodeAux r (stack + braceDelta c) [] (m :: acc)
            | none => splitDecodeAux r (stack + braceDelta c) [] acc)
         else splitDecodeAux r (stack + braceDelta c) (cur ++ [c]) acc) := by
  have hstep : (if c = '\x7b' then stack + 1
      else if c = '\x7d' then stack - 1 else stack) = stack + braceDelta c := by
    simp only [braceDelta]
    split_ifs <;> omega
  simp only [splitDecodeAux]
  rw [hstep]

theorem splitAux_run (cs : List Char) :
    ∀ (tail : List Char) (stack : Int) (cur : List Char) (acc : List Json),
      (∀ k, 0 < stack + bal (cs.take k)) →
      splitDecodeAux (cs ++ tail) stack cur acc
        = splitDecodeAux tail (stack + bal cs) (cur ++ cs) acc := by
  induction cs with
  | nil =>
      intro tail stack cur acc _
      simp [bal]
  | cons c t ih =>
      intro tail stack cur acc hpos
      have h1 : bal ((c :: t).take 1) = braceDelta c := by
        simp [bal]
      have hne : ¬ (stack + braceDelta c = 0) := by
        have := hpos 1
        rw [h1] at this
        omega
      rw [List.cons_append, splitAux_cons, if_neg hne]
      have hpos2 : ∀ k, 0 < stack + braceDelta c + bal (t.take k) := by
        intro k
        have := hpos (k + 1)
        rw [List.take_succ_cons, bal_cons] at this
        omega
      rw [ih tail (stack + braceDelta c) (cur ++ [c]) acc hpos2]
      rw [bal_cons]
      have hl : cur ++ [c] ++ t = cur ++ (c :: t) := by
        simp
      rw [hl]
      congr 1
      omega

theorem splitDecode_record (inner rest : List Char) (acc : List Json) (m : Json)
    (hbal : Balanced inner)
    (hload : jsonLoads (pyStrip ('\x7b' :: (inner ++ ['\x7d']))) = some m) :
    splitDecodeAux (('\x7b' :: (inner ++ ['\x7d'])) ++ rest) 0 [] acc
      = splitDecodeAux rest 0 [] (m :: acc) := by
  have hb1 : braceDelta '\x7b' = 1 := by decide
  have hb2 : braceDelta '\x7d' = -1 := by decide
  rw [List.cons_append, splitAux_cons, hb1,
    if_neg (by omega : ¬ ((0 : Int) + 1 = 0))]
  have hassoc : (inner ++ ['\x7d']) ++ rest = inner ++ ('\x7d' :: rest) := by
    simp
  rw [hassoc]
  rw [splitAux_run inner ('\x7d' :: rest) (0 + 1) ([] ++ ['\x7b']) acc
    (by intro k; have := hbal.2 k; omega)]
  rw [splitAux_cons, hb2, hbal.1]
  rw [if_pos (by omega : (0 : Int) + 1 + 0 + -1 = 0)]
  have hcur : ([] ++ ['\x7b']) ++ inner ++ ['\x7d']
      = '\x7b' :: (inner ++ ['\x7d']) := by
    simp
  rw [hcur, hload]
  dsimp only
  congr 1

theorem dropWhile_of_head (p : Char → Bool) (cs : List Char)
    (h : ∀ c, cs.head? = some c → p c = false) : cs.dropWhile p = cs := by
  cases cs with
  | nil => rfl
  | cons c t => simp [List.dropWhile_cons, h c rfl]

theorem pyStrip_eq_self (cs : List Char)
    (h1 : ∀ c, cs.head? = some c → isSpaceCh c = false)
    (h2 : ∀ c, cs.getLast? = some c → isSpaceCh c = false) :
    pyStrip cs = cs := by
  unfold pyStrip
  rw [dropWhile_of_head _ _ h1]
  rw [dropWhile_of_head _ _ (fun c hc => h2 c (by rwa [← List.head?_reverse]))]
  rw [List.reverse_reverse]

/-- `JSONProtocol.decode ∘ JSONProtocol.encode` returns exactly the encoded
record (as the one dict in the decoded list) on safe records. -/
theorem json_decode_encode (kvs : JsonKVs) (h : safeK kvs = true) :
    json_decode (jsonDumps (Json.obj kvs)) = [Json.obj kvs] := by
  have htext : jsonDumps (Json.obj kvs)
      = '\x7b' :: (dumpsKVs kvs ++ ['\x7d']) := by
    simp [jsonDumps]
  have hstrip : pyStrip (jsonDumps (Json.obj kvs)) = jsonDumps (Json.obj kvs) := by
    apply pyStrip_eq_self
    · intro c hc
      rw [htext] at hc
      simp only [List.head?_cons, Option.some.injEq] at hc
      subst hc
      decide
    · intro c hc
      rw [htext] at hc
      have : ('\x7b' :: (dumpsKVs kvs ++ ['\x7d'])).getLast? = some '\x7d' := by
        have := List.getLast?_concat (a := '\x7d') ('\x7b' :: dumpsKVs kvs)
        simpa using this
      rw [this] at hc
      cases hc
      decide
  have hload : jsonLoads (pyStrip ('\x7b' :: (dumpsKVs kvs ++ ['\x7d'])))
      = some (Json.obj kvs) := by
    rw [← htext, hstrip]
    exact jsonLoads_dumps (Json.obj kvs) h
  rw [json_decode, hstrip, htext]
  have hrec := splitDecode_record (dumpsKVs kvs) [] [] (Json.obj kvs)
    (balancedK_dumps kvs h) hload
  rw [List.append_nil] at hrec
  rw [hrec]
  rfl

theorem getLast?_mem_list {α : Type} {l : List α} {a : α}
    (h : l.getLast? = some a) : a ∈ l := by
  cases l with
  | nil => cases h
  | cons x xs =>
      rw [List.getLast?_eq_getLast_of_ne_nil (List.cons_ne_nil x xs)] at h
      cases h
      exact List.getLast_mem _

theorem digit_ne_colon (c : Char) (h : isDigitCh c = true) :
    (c == ':') = false := by
  simp only [isDigitCh, Bool.and_eq_true, decide_eq_true_eq] at h
  simp only [beq_eq_false_iff_ne, ne_eq]
  intro hc
  subst hc
  revert h
  decide

theorem digit_not_space (c : Char) (h : isDigitCh c = true) :
    isSpaceCh c = false := by
  simp only [isDigitCh, Bool.and_eq_true, decide_eq_true_eq] at h
  simp only [isSpaceCh, Bool.or_eq_false_iff, beq_eq_false_iff_ne, ne_eq]
  refine ⟨⟨⟨fun hc => ?_, fun hc => ?_⟩, fun hc => ?_⟩, fun hc => ?_⟩ <;>
    (subst hc; revert h; decide)

theorem natToDigits_no_colon (n : Nat) (c : Char) (hc : c ∈ natToDigits n) :
    (c == ':') = false :=
  digit_ne_colon c (List.all_eq_true.mp (natToDigits_all n).1 c hc)

theorem findIdx_colon (xs ys : List Char)
    (h : ∀ c ∈ xs, (c == ':') = false) :
    (xs ++ ':' :: ys).findIdx? (fun c => c == ':') = some xs.length := by
  induction xs with
  | nil => simp [List.findIdx?_cons]
  | cons x xs ih =>
      have hx := h x (List.mem_cons_self x xs)
      have ihx := ih (fun c hc => h c (List.mem_cons_of_mem _ hc))
      rw [List.cons_append, List.findIdx?_cons]
      simp only [hx, Bool.false_eq_true, if_false, List.findIdx?_succ, ihx,
        Option.map_some]
      simp [List.length_cons]

theorem natToDigits_single (i : Nat) (h : i < 10) :
    natToDigits i = [digitChar i] := by
  simp [natToDigits, natToDigitsAux, h]

theorem listIndex_lt {x : List Char} :
    ∀ {l : List (List Char)} {i : Nat}, listIndex x l = some i → i < l.length := by
  intro l
  induction l with
  | nil => intro i h; cases h
  | cons y ys ih =>
      intro i h
      rw [listIndex] at h
      by_cases hyx : (y == x) = true
      · rw [if_pos hyx] at h
        cases h
        simp
      · rw [if_neg hyx] at h
        cases hi : listIndex x ys with
        | none => rw [hi] at h; cases h
        | some j =>
            rw [hi] at h
            cases h
            have := ih hi
            simpa using Nat.succ_lt_succ this

theorem listIndex_get {x : List Char} :
    ∀ {l : List (List Char)} {i : Nat}, listIndex x l = some i →
      l.get? i = some x := by
  intro l
  induction l with
  | nil => intro i h; cases h
  | cons y ys ih =>
      intro i h
      rw [listIndex] at h
      by_cases hyx : (y == x) = true
      · rw [if_pos hyx] at h
        cases h
        simpa using (beq_iff_eq.mp hyx)
      · rw [if_neg hyx] at h
        cases hi : listIndex x ys with
        | none => rw [hi] at h; cases h
        | some j =>
            rw [hi] at h
            cases h
            simpa using ih hi

theorem mem_listIndex {x : List Char} :
    ∀ {l : List (List Char)}, x ∈ l → ∃ i, listIndex x l = some i := by
  intro l
  induction l with
  | nil => intro h; cases h
  | cons y ys ih =>
      intro h
      by_cases hyx : (y == x) = true
      · exact ⟨0, by rw [listIndex, if_pos hyx]⟩
      · have hx : x ∈ ys := by
          rcases List.mem_cons.mp h with rfl | hmem
          · exact absurd (beq_self_eq_true x) (by simp at hyx)
          · exact hmem
        obtain ⟨i, hi⟩ := ih hx
        exact ⟨i + 1, by rw [listIndex, if_neg hyx, hi]; rfl⟩

theorem actionBlock_length (a? : Option (List Char)) :
    (actionBlock a?).length = 2 := by
  cases a? with
  | none => rfl
  | some a =>
      simp only [actionBlock]
      cases hi : listIndex a ACTIONS with
      | none => rfl
      | some i =>
          have hlen : ACTIONS.length = 10 := rfl
          have hlt : i < 10 := hlen ▸ listIndex_lt hi
          simp [natToDigits_single i hlt]

theorem statusBlock_length (st? : Option (List Char)) :
    (statusBlock st?).length = 2 := by
  cases st? with
  | none => rfl
  | some st =>
      simp only [statusBlock]
      split_ifs <;> rfl

theorem dumps_ne_nil (v : Json) : jsonDumps v ≠ [] := by
  intro h
  have h1 := jsize_dumps v
  have h2 := jsize_pos v
  rw [h] at h1
  simp only [List.length_nil] at h1
  omega

theorem dataBlock_ne_nil (d? : Option Json) : dataBlock d? ≠ [] := by
  cases d? with
  | none => simp [dataBlock]
  | some dt =>
      simp only [dataBlock]
      split_ifs with h
      · exact dumps_ne_nil dt
      · simp

theorem decode_actionBlock (a? : Option (List Char))
    (h : actionValid a? = true) :
    decodeActionField (actionBlock a?) = a? := by
  cases a? with
  | none => rfl
  | some a =>
      have hmem : a ∈ ACTIONS := by simpa [actionValid] using h
      obtain ⟨i, hi⟩ := mem_listIndex hmem
      have hlen : ACTIONS.length = 10 := rfl
      have hlt : i < 10 := hlen ▸ listIndex_lt hi
      have hget := listIndex_get hi
      simp only [actionBlock, hi, natToDigits_single i hlt]
      interval_cases i <;> exact hget

theorem decode_statusBlock (st? : Option (List Char))
    (h : statusValid st? = true) :
    decodeStatusField (statusBlock st?) = st? := by
  cases st? with
  | none => rfl
  | some st =>
      have h2 : st = "success".toList ∨ st = "error".toList := by
        simpa [statusValid] using h
      rcases h2 with h1 | h1 <;> (subst h1; decide)

theorem dataBlock_loads (d? : Option Json)
    (hvd : dataValid d? = true)
    (hsd : dataSafe d? = true) :
    (dataBlock d?).isEmpty = false ∧
    ∃ j, jsonLoads (dataBlock d?) = some j ∧
      (if jTruthy j then some j else none) = d? := by
  cases d? with
  | none => exact ⟨rfl, Json.num 0, by decide, by decide⟩
  | some dt =>
      have hvd' : jTruthy dt = true := hvd
      have hsd' : safeJ dt = true := hsd
      simp only [dataBlock, if_pos hvd']
      refine ⟨?_, dt, jsonLoads_dumps dt hsd', by rw [if_pos hvd']⟩
      have hne := dumps_ne_nil dt
      cases hJD : jsonDumps dt with
      | nil => exact absurd hJD hne
      | cons c cs => rfl

theorem parse_components_payload (r : Rec) (hval : ValidRec r = true)
    (hsafe : SafeRec r = true) :
    parse_components (cp_payload r) = some r := by
  obtain ⟨a?, s?, e?, d?⟩ := r
  simp only [ValidRec, Bool.and_eq_true] at hval
  obtain ⟨hva, hvs, hve, hvd⟩ := hval
  simp only [SafeRec, Bool.and_eq_true] at hsafe
  obtain ⟨hsa, hss, hse, hsd⟩ := hsafe
  have hA := actionBlock_length a?
  have hS := statusBlock_length s?
  have h1 : (cp_payload ⟨a?, s?, e?, d?⟩).take 2 = actionBlock a? := by
    rw [cp_payload]
    exact List.take_left' hA
  have h2 : (cp_payload ⟨a?, s?, e?, d?⟩).drop 2
      = statusBlock s? ++ (errorBlock e? ++ dataBlock d?) := by
    rw [cp_payload]
    exact List.drop_left' hA
  have h3 : ((cp_payload ⟨a?, s?, e?, d?⟩).drop 2).take 2 = statusBlock s? := by
    rw [h2]
    exact List.take_left' hS
  have h4 : (cp_payload ⟨a?, s?, e?, d?⟩).drop 4
      = errorBlock e? ++ dataBlock d? := by
    have h44 : (4 : Nat) = 2 + 2 := rfl
    rw [h44, ← List.drop_drop, h2]
    exact List.drop_left' hS
  obtain ⟨hDne, j, hload, hjt⟩ := dataBlock_loads d? hvd hsd
  rw [parse_components]
  simp only [h1, h3, h4, decode_actionBlock a? hva, decode_statusBlock s? hvs]
  cases e? with
  | none =>
      simp only [errorBlock, List.singleton_append]
      simp [hDne, hload, hjt]
  | some e =>
      have hene : e ≠ [] := by
        cases e with
        | nil => exact absurd hve (by decide)
        | cons c cs => exact List.cons_ne_nil c cs
      have heb : errorBlock (some e) = natToDigits e.length ++ ':' :: e := by
        simp only [errorBlock]
        rw [if_neg]
        simp [List.isEmpty_iff, hene]
      obtain ⟨c, cs, hcs⟩ := List.exists_cons_of_ne_nil (natToDigits_all e.length).2
      have hcd : isDigitCh c = true := by
        have := (natToDigits_all e.length).1
        rw [hcs] at this
        exact List.all_eq_true.mp this c (List.mem_cons_self c cs)
      have hc0 : c ≠ '0' :=
        natToDigits_head_ne_zero e.length c cs
          (by cases e with
              | nil => exact absurd rfl hene
              | cons x xs => simp) hcs
      have hshape : errorBlock (some e) ++ dataBlock d?
          = natToDigits e.length ++ ':' :: (e ++ dataBlock d?) := by
        rw [heb]
        simp [List.append_assoc]
      rw [hshape, hcs, List.cons_append]
      have hfind : ((c :: cs) ++ ':' :: (e ++ dataBlock d?)).findIdx?
          (fun x => x == ':') = some (c :: cs).length := by
        apply findIdx_colon
        intro x hx
        rw [← hcs] at hx
        exact natToDigits_no_colon e.length x hx
      rw [List.cons_append] at hfind
      simp only [if_neg hc0, hfind]
      have htake : (c :: (cs ++ ':' :: (e ++ dataBlock d?))).take (c :: cs).length
          = c :: cs := by
        rw [← List.cons_append]
        exact List.take_left (c :: cs) _
      have hdrop : (c :: (cs ++ ':' :: (e ++ dataBlock d?))).drop ((c :: cs).length + 1)
          = e ++ dataBlock d? := by
        rw [← List.cons_append]
        have hsplit : (c :: cs) ++ ':' :: (e ++ dataBlock d?)
            = ((c :: cs) ++ [':']) ++ (e ++ dataBlock d?) := by
          simp
        rw [hsplit]
        exact List.drop_left' (by simp)
      rw [htake, hdrop, ← hcs, parsePyInt_natToDigits]
      simp only [List.take_left, List.drop_left]
      have heie : e.isEmpty = false := by
        simp [List.isEmpty_iff, hene]
      simp only [hDne, Bool.false_eq_true, if_false, hload, hjt, heie]

theorem natToDigits_getLast_digit (m : Nat) (c : Char)
    (h : (natToDigits m).getLast? = some c) : isDigitCh c = true :=
  List.all_eq_true.mp (natToDigits_all m).1 c (getLast?_mem_list h)

theorem dumps_getLast_not_space (v : Json) (c : Char)
    (h : (jsonDumps v).getLast? = some c) : isSpaceCh c = false := by
  cases v with
  | null =>
      have h' : (['n', 'u', 'l', 'l'] : List Char).getLast? = some c := h
      simp only [List.getLast?_cons_cons, List.getLast?_singleton,
        Option.some.injEq] at h'
      subst h'
      decide
  | bool b =>
      cases b with
      | false =>
          have h' : (['f', 'a', 'l', 's', 'e'] : List Char).getLast? = some c := h
          simp only [List.getLast?_cons_cons, List.getLast?_singleton,
            Option.some.injEq] at h'
          subst h'
          decide
      | true =>
          have h' : (['t', 'r', 'u', 'e'] : List Char).getLast? = some c := h
          simp only [List.getLast?_cons_cons, List.getLast?_singleton,
            Option.some.injEq] at h'
          subst h'
          decide
  | num n =>
      have h' : (intToChars n).getLast? = some c := h
      rw [intToChars] at h'
      split_ifs at h' with hn
      · have hne := (natToDigits_all n.natAbs).2
        rw [show '-' :: natToDigits n.natAbs
              = ['-'] ++ natToDigits n.natAbs from rfl,
            List.getLast?_append_of_ne_nil _ hne] at h'
        exact digit_not_space c (natToDigits_getLast_digit n.natAbs c h')
      · exact digit_not_space c (natToDigits_getLast_digit n.toNat c h')
  | str s =>
      have h' : (('"' :: s) ++ ['"']).getLast? = some c := by
        rw [List.cons_append]
        exact h
      rw [List.getLast?_concat] at h'
      cases h'
      decide
  | arr xs =>
      have h' : (('[' :: dumpsList xs) ++ [']']).getLast? = some c := by
        rw [List.cons_append]
        exact h
      rw [List.getLast?_concat] at h'
      cases h'
      decide
  | obj kvs =>
      have h' : (('\x7b' :: dumpsKVs kvs) ++ ['\x7d']).getLast? = some c := by
        rw [List.cons_append]
        exact h
      rw [List.getLast?_concat] at h'
      cases h'
      decide

theorem dataBlock_getLast_not_space (d? : Option Json) (c : Char)
    (h : (dataBlock d?).getLast? = some c) : isSpaceCh c = false := by
  cases d? with
  | none =>
      have h' : (['0'] : List Char).getLast? = some c := h
      simp only [List.getLast?_singleton, Option.some.injEq] at h'
      subst h'
      decide
  | some dt =>
      rw [dataBlock] at h
      split_ifs at h with hdt
      · exact dumps_getLast_not_space dt c h
      · have h' : (['0'] : List Char).getLast? = some c := h
        simp only [List.getLast?_singleton, Option.some.injEq] at h'
        subst h'
        decide

theorem pyStrip_cp_encode (r : Rec) : pyStrip (cp_encode r) = cp_encode r := by
  apply pyStrip_eq_self
  · intro c hc
    obtain ⟨d, ds, hds⟩ :=
      List.exists_cons_of_ne_nil (natToDigits_all (cp_payload r).length).2
    rw [cp_encode, hds, List.cons_append, List.head?_cons] at hc
    cases hc
    apply digit_not_space
    have := (natToDigits_all (cp_payload r).length).1
    rw [hds] at this
    exact List.all_eq_true.mp this c (List.mem_cons_self c ds)
  · intro c hc
    have hD := dataBlock_ne_nil r.data
    have hED : errorBlock r.error ++ dataBlock r.data ≠ [] :=
      fun hnil => hD (List.append_eq_nil.mp hnil).2
    have hSED : statusBlock r.status
        ++ (errorBlock r.error ++ dataBlock r.data) ≠ [] :=
      fun hnil => hED (List.append_eq_nil.mp hnil).2
    have hP : cp_payload r ≠ [] := by
      rw [cp_payload]
      exact fun hnil => hSED (List.append_eq_nil.mp hnil).2
    have hlast : (cp_encode r).getLast? = (dataBlock r.data).getLast? := by
      rw [cp_encode,
          List.getLast?_append_of_ne_nil _ (List.cons_ne_nil ':' (cp_payload r)),
          show (':' :: cp_payload r) = [':'] ++ cp_payload r from rfl,
          List.getLast?_append_of_ne_nil _ hP, cp_payload,
          List.getLast?_append_of_ne_nil _ hSED,
          List.getLast?_append_of_ne_nil _ hED,
          List.getLast?_append_of_ne_nil _ hD]
    rw [hlast] at hc
    exact dataBlock_getLast_not_space r.data c hc

theorem cp_decodeAux_nil (f : Nat) (acc : List Rec) :
    cp_decodeAux (f + 1) [] acc = acc.reverse := rfl

theorem cp_decode_encode (r : Rec) (hval : ValidRec r = true)
    (hsafe : SafeRec r = true) :
    cp_decode (cp_encode r) = [r] := by
  have hPne : cp_payload r ≠ [] := by
    rw [cp_payload]
    intro hnil
    exact dataBlock_ne_nil r.data
      (List.append_eq_nil.mp
        (List.append_eq_nil.mp (List.append_eq_nil.mp hnil).2).2).2
  obtain ⟨d, ds, hds⟩ :=
    List.exists_cons_of_ne_nil (natToDigits_all (cp_payload r).length).2
  have hT : cp_encode r
      = natToDigits (cp_payload r).length ++ ':' :: cp_payload r := rfl
  obtain ⟨f, hf⟩ : ∃ f, (cp_encode r).length = f + 2 := by
    have h1 : 1 ≤ (natToDigits (cp_payload r).length).length := by
      rw [hds]
      simp
    have h2 : 1 ≤ (cp_payload r).length := List.length_pos.mpr hPne
    have hge : 2 ≤ (cp_encode r).length := by
      rw [hT, List.length_append, List.length_cons]
      omega
    exact ⟨(cp_encode r).length - 2, by omega⟩
  have hne : (cp_encode r).isEmpty = false := by
    rw [hT, hds, List.cons_append]
    rfl
  have hfind : (cp_encode r).findIdx? (fun c => c == ':')
      = some (natToDigits (cp_payload r).length).length := by
    rw [hT]
    exact findIdx_colon _ _ (fun c hc => natToDigits_no_colon _ c hc)
  have htake : (cp_encode r).take (natToDigits (cp_payload r).length).length
      = natToDigits (cp_payload r).length := by
    rw [hT]
    exact List.take_left _ _
  have hdropA : (cp_encode r).drop
        ((natToDigits (cp_payload r).length).length + 1)
      = cp_payload r := by
    rw [hT, show natToDigits (cp_payload r).length ++ ':' :: cp_payload r
          = (natToDigits (cp_payload r).length ++ [':']) ++ cp_payload r by
        simp]
    exact List.drop_left' (by simp)
  rw [cp_decode, pyStrip_cp_encode, hf, show f + 2 = (f + 1) + 1 from rfl,
    cp_decodeAux]
  simp only [hne, Bool.false_eq_true, if_false, hfind, htake,
    parsePyInt_natToDigits, hdropA, lt_irrefl, List.take_length,
    parse_components_payload r hval hsafe, List.drop_length]
  exact cp_decodeAux_nil f [r]

theorem safeK_optCons (k : List Char) (v : Option Json) (rest : JsonKVs)
    (hk : k.all safeChar = true)
    (hv : ∀ j, v = some j → safeJ j = true)
    (hr : safeK rest = true) :
    safeK (optCons k v rest) = true := by
  cases v with
  | none => exact hr
  | some j => simp [optCons, safeK, hk, hv j rfl, hr]

theorem safeJ_of_strSafe (s? : Option (List Char)) (h : strSafe s? = true) :
    ∀ j, s?.map Json.str = some j → safeJ j = true := by
  intro j hj
  cases s? with
  | none => cases hj
  | some s =>
      have hj' : some (Json.str s) = some j := hj
      cases hj'
      exact h

theorem safeJ_of_dataSafe (d? : Option Json) (h : dataSafe d? = true) :
    ∀ j, d? = some j → safeJ j = true := by
  intro j hj
  cases d? with
  | none => cases hj
  | some dt =>
      cases hj
      exact h

theorem json_codec_part (r : Rec) (hsafe : SafeRec r = true) :
    json_decode (json_encode r) = [recToJson r] := by
  simp only [SafeRec, Bool.and_eq_true] at hsafe
  obtain ⟨hsa, hss, hse, hsd⟩ := hsafe
  have hK : safeK (optCons "action".toList (r.action.map Json.str)
      (optCons "status".toList (r.status.map Json.str)
        (optCons "error".toList (r.error.map Json.str)
          (optCons "data".toList r.data JsonKVs.nil)))) = true := by
    apply safeK_optCons _ _ _ (by decide) (safeJ_of_strSafe _ hsa)
    apply safeK_optCons _ _ _ (by decide) (safeJ_of_strSafe _ hss)
    apply safeK_optCons _ _ _ (by decide) (safeJ_of_strSafe _ hse)
    apply safeK_optCons _ _ _ (by decide) (safeJ_of_dataSafe _ hsd)
    rfl
  exact json_decode_encode _ hK

/-- C2: for a record with fields drawn from action/status/error/data whose
strings contain no quote, backslash or brace (the fragment the brace-counting
splitter of `JSONProtocol.decode` can frame), the JSON codec round-trips it
as the single element of the decoded list, absent fields staying absent; if
in addition the record is one the compact tags can carry — a listed action,
a status of "success" or "error", a nonempty error and truthy data, each
when present — the compact codec round-trips it as well. -/
theorem codec_round_trip (r : Rec) (hsafe : SafeRec r = true) :
    json_decode (json_encode r) = [recToJson r]
      ∧ (ValidRec r = true → cp_decode (cp_encode r) = [r]) :=
  ⟨json_codec_part r hsafe, fun hval => cp_decode_encode r hval hsafe⟩

/-- The round-trip theorem applied to a concrete full record. -/
theorem codec_round_trip_witness :
    SafeRec ⟨some "login".toList, some "success".toList,
      some "bad".toList, some (Json.num 5)⟩ = true ∧
    ValidRec ⟨some "login".toList, some "success".toList,
      some "bad".toList, some (Json.num 5)⟩ = true ∧
    json_decode (json_encode ⟨some "login".toList, some "success".toList,
        some "bad".toList, some (Json.num 5)⟩)
      = [recToJson ⟨some "login".toList, some "success".toList,
          some "bad".toList, some (Json.num 5)⟩] ∧
    cp_decode (cp_encode ⟨some "login".toList, some "success".toList,
        some "bad".toList, some (Json.num 5)⟩)
      = [⟨some "login".toList, some "success".toList,
          some "bad".toList, some (Json.num 5)⟩] :=
  ⟨by decide, by decide,
    (codec_round_trip ⟨some "login".toList, some "success".toList,
        some "bad".toList, some (Json.num 5)⟩ (by decide)).1,
    (codec_round_trip ⟨some "login".toList, some "success".toList,
        some "bad".toList, some (Json.num 5)⟩ (by decide)).2 (by decide)⟩

end Chat
